import Mathlib

/-!
Verification of the helm-template post-render pipeline (`src/main.go`):
hierarchical merging of configuration override trees (`mergeValues`),
classification of rendered documents into hooks and generic manifests
(`sortManifests`), and kind-aware ordering of the generic bucket
(`sortByKind`, backed by Go's `sort.Sort`).

Conventions of the embedding:
* Go's `map[string]interface{}` configuration values become the inductive
  `GVal` (scalar, sequence, or nested string-keyed tree); a tree is an
  association list in which a Go map's iteration order is made explicit.
* Assigning `dest[k] = v` is `treeSet` (replace the binding in place, or
  append a fresh binding).
* Reference (aliasing) questions about Go maps are answered with a second,
  store-passing model further below.
-/

set_option maxHeartbeats 1000000

/-- A dynamically typed configuration value, mirroring the `interface{}`
values that `mergeValues` dispatches on: a scalar, a sequence, or a nested
`map[string]interface{}` (represented as an association list). -/
inductive GVal where
  | prim (s : String) : GVal
  | seq (l : List GVal) : GVal
  | map (t : List (String × GVal)) : GVal
deriving Inhabited

/-- A configuration tree: the model of Go's `map[string]interface{}`,
with iteration order made explicit as list order. -/
abbrev ConfigTree := List (String × GVal)

/-- Go map read `dest[k]` together with its `exists` flag: the first
matching binding, or `none`. -/
def treeGet : ConfigTree → String → Option GVal
  | [], _ => none
  | (k', v) :: rest, k => if k' = k then some v else treeGet rest k

/-- Go map write `dest[k] = v`: replace the binding for `k` in place if
present, otherwise add a fresh binding. -/
def treeSet : ConfigTree → String → GVal → ConfigTree
  | [], k, v => [(k, v)]
  | (k', w) :: rest, k, v =>
    if k' = k then (k, v) :: rest else (k', w) :: treeSet rest k v

/-- The keys of a configuration tree. -/
def treeKeys (t : ConfigTree) : List String := t.map Prod.fst

/-- Whether `dest[k]` currently holds a nested map: the source's type
assertion `destMap, isMap := dest[k].(map[string]interface{})` (a missing
key yields a nil interface, whose assertion also fails). -/
def isMapAt (d : ConfigTree) (k : String) : Bool :=
  match treeGet d k with
  | some (GVal.map _) => true
  | _ => false

/-- The nested map currently at `dest[k]` (meaningful when `isMapAt`). -/
def mapAt (d : ConfigTree) (k : String) : ConfigTree :=
  match treeGet d k with
  | some (GVal.map t) => t
  | _ => []

/-- Embedding of `mergeValues` (src/main.go:149-178): fold over the
override (`src`) entries, updating the accumulating `dest`.  In the
source, an absent key, a present key with non-map override value, and a
present non-map destination value under a map override value all perform
the same map assignment `dest[k] = v`; only the map-into-map case
recurses.  The branches are grouped accordingly here (the source's second
`exists` test on lines 162-166 re-checks line 152's condition and is
unreachable). -/
def mergeValues : ConfigTree → ConfigTree → ConfigTree
  | dest, [] => dest
  | dest, (k, GVal.map nm) :: rest =>
    mergeValues
      (if isMapAt dest k then
        treeSet dest k (GVal.map (mergeValues (mapAt dest k) nm))
       else treeSet dest k (GVal.map nm)) rest
  | dest, (k, v) :: rest => mergeValues (treeSet dest k v) rest
termination_by _ s => sizeOf s
decreasing_by
  all_goals simp_wf
  all_goals omega

/-- Left-to-right merge of a sequence of override trees into a single
tree, the spec's `merge_sequence` (§8): later trees take precedence. -/
def mergeSequence (ts : List ConfigTree) : ConfigTree :=
  ts.foldl mergeValues []

/-- One `mergeValues` loop iteration on a single override binding. -/
def mergeStep (d : ConfigTree) (k : String) (v : GVal) : ConfigTree :=
  match v with
  | GVal.map nm =>
    if isMapAt d k then treeSet d k (GVal.map (mergeValues (mapAt d k) nm))
    else treeSet d k (GVal.map nm)
  | v => treeSet d k v

/-- The per-key result of merging: `dv` is the destination's value at the
key, `sv` the override's. -/
def mergeAt (dv sv : Option GVal) : Option GVal :=
  match sv with
  | none => dv
  | some v =>
    some
      (match v, dv with
       | GVal.map nm, some (GVal.map dm) => GVal.map (mergeValues dm nm)
       | _, _ => v)

/-- Whether a value is itself a nested configuration tree. -/
def isTreeVal : GVal → Bool
  | GVal.map _ => true
  | _ => false

theorem mergeValues_nil_src (d : ConfigTree) : mergeValues d [] = d := by
  unfold mergeValues
  rfl

theorem mergeValues_cons_src (d : ConfigTree) (k : String) (v : GVal)
    (rest : ConfigTree) :
    mergeValues d ((k, v) :: rest) = mergeValues (mergeStep d k v) rest := by
  cases v <;> simp only [mergeValues, mergeStep]

theorem treeGet_treeSet_self (t : ConfigTree) (k : String) (v : GVal) :
    treeGet (treeSet t k v) k = some v := by
  induction t with
  | nil => simp [treeSet, treeGet]
  | cons hd tl ih =>
    obtain ⟨k', w⟩ := hd
    by_cases h : k' = k
    · simp [treeSet, treeGet, h]
    · simp [treeSet, treeGet, h, ih]

theorem treeGet_treeSet_ne (t : ConfigTree) (k q : String) (v : GVal)
    (h : k ≠ q) : treeGet (treeSet t k v) q = treeGet t q := by
  induction t with
  | nil => simp [treeSet, treeGet, h]
  | cons hd tl ih =>
    obtain ⟨k', w⟩ := hd
    by_cases h' : k' = k
    · subst h'
      simp [treeSet, treeGet, h]
    · simp [treeSet, treeGet, h', ih]

theorem treeGet_eq_none_of_not_mem (t : ConfigTree) (k : String)
    (h : k ∉ treeKeys t) : treeGet t k = none := by
  induction t with
  | nil => simp [treeGet]
  | cons hd tl ih =>
    obtain ⟨k', w⟩ := hd
    simp only [treeKeys, List.map_cons, List.mem_cons] at h
    push_neg at h
    have : k' ≠ k := fun hh => h.1 hh.symm
    simp [treeGet, this, ih (by simpa [treeKeys] using h.2)]

theorem treeGet_mergeStep_self (d : ConfigTree) (k : String) (v : GVal) :
    treeGet (mergeStep d k v) k = mergeAt (treeGet d k) (some v) := by
  unfold mergeStep mergeAt isMapAt mapAt
  cases v with
  | prim s =>
    cases hd : treeGet d k <;> simp [treeGet_treeSet_self]
  | seq l =>
    cases hd : treeGet d k <;> simp [treeGet_treeSet_self]
  | map nm =>
    cases hd : treeGet d k with
    | none => simp [treeGet_treeSet_self]
    | some w => cases w <;> simp [treeGet_treeSet_self]

theorem treeGet_mergeStep_ne (d : ConfigTree) (k q : String) (v : GVal)
    (h : k ≠ q) : treeGet (mergeStep d k v) q = treeGet d q := by
  unfold mergeStep
  cases v with
  | prim s => simp [treeGet_treeSet_ne _ _ _ _ h]
  | seq l => simp [treeGet_treeSet_ne _ _ _ _ h]
  | map nm =>
    by_cases hm : isMapAt d k <;> simp [hm, treeGet_treeSet_ne _ _ _ _ h]

/-- Per-key characterization of `mergeValues`: the merged tree's value at
any key is `mergeAt` of the two sides' values there (override keys must be
distinct, as they are for a decoded map). -/
theorem treeGet_mergeValues (d s : ConfigTree) (q : String)
    (hs : (treeKeys s).Nodup) :
    treeGet (mergeValues d s) q = mergeAt (treeGet d q) (treeGet s q) := by
  induction s generalizing d with
  | nil => simp [mergeValues_nil_src, treeGet, mergeAt]
  | cons hd rest ih =>
    obtain ⟨k, v⟩ := hd
    simp only [treeKeys, List.map_cons, List.nodup_cons] at hs
    rw [mergeValues_cons_src]
    by_cases hq : k = q
    · subst hq
      have hrest : treeGet rest k = none :=
        treeGet_eq_none_of_not_mem rest k (by simpa [treeKeys] using hs.1)
      rw [ih (mergeStep d k v) (by simpa [treeKeys] using hs.2)]
      rw [hrest, treeGet_mergeStep_self]
      simp [treeGet, mergeAt]
    · rw [ih (mergeStep d k v) (by simpa [treeKeys] using hs.2)]
      rw [treeGet_mergeStep_ne d k q v hq]
      simp [treeGet, hq]

/-- C1: per override key, `mergeValues` inserts absent keys verbatim,
replaces on a non-tree override value, replaces wholesale when the
override is a tree but the existing value is not, and merges recursively
(storing the merged subtree back) when both are trees. -/
theorem C1_mergeValues_per_key (d s : ConfigTree)
    (hs : (treeKeys s).Nodup) :
    ∀ q v, treeGet s q = some v →
      ((treeGet d q = none → treeGet (mergeValues d s) q = some v) ∧
       (∀ w, treeGet d q = some w → isTreeVal v = false →
          treeGet (mergeValues d s) q = some v) ∧
       (∀ nm dm, v = GVal.map nm → treeGet d q = some (GVal.map dm) →
          treeGet (mergeValues d s) q = some (GVal.map (mergeValues dm nm))) ∧
       (∀ nm w, v = GVal.map nm → treeGet d q = some w → isTreeVal w = false →
          treeGet (mergeValues d s) q = some v)) := by
  intro q v hsv
  have hchar := treeGet_mergeValues d s q hs
  rw [hsv] at hchar
  refine ⟨?_, ?_, ?_, ?_⟩
  · intro hd
    rw [hchar, hd]
    cases v <;> simp [mergeAt]
  · intro w hd hv
    rw [hchar, hd]
    cases v <;> simp_all [mergeAt, isTreeVal]
  · intro nm dm hv hd
    subst hv
    rw [hchar, hd]
    simp [mergeAt]
  · intro nm w hv hd hw
    subst hv
    rw [hchar, hd]
    cases w <;> simp_all [mergeAt, isTreeVal]

/-- Concrete instance discharging `C1_mergeValues_per_key`'s hypotheses:
a base with a scalar and a subtree merged with an override that adds one
key, replaces the scalar, and deep-merges the subtree. -/
theorem C1_mergeValues_per_key_witness :
    (treeKeys [("a", GVal.prim "2"),
               ("b", GVal.map [("y", GVal.prim "3")]),
               ("c", GVal.prim "new")]).Nodup ∧
    treeGet
      (mergeValues
        [("a", GVal.prim "1"), ("b", GVal.map [("x", GVal.prim "0")])]
        [("a", GVal.prim "2"),
         ("b", GVal.map [("y", GVal.prim "3")]),
         ("c", GVal.prim "new")]) "b"
      = some (GVal.map (mergeValues [("x", GVal.prim "0")] [("y", GVal.prim "3")])) := by
  constructor
  · simp [treeKeys]
  · exact (C1_mergeValues_per_key
      [("a", GVal.prim "1"), ("b", GVal.map [("x", GVal.prim "0")])]
      [("a", GVal.prim "2"),
       ("b", GVal.map [("y", GVal.prim "3")]),
       ("c", GVal.prim "new")]
      (by simp [treeKeys]) "b" (GVal.map [("y", GVal.prim "3")])
      (by simp [treeGet])).2.2.1
      [("y", GVal.prim "3")] [("x", GVal.prim "0")] rfl (by simp [treeGet])

theorem mergeValues_append (d s₁ s₂ : ConfigTree) :
    mergeValues d (s₁ ++ s₂) = mergeValues (mergeValues d s₁) s₂ := by
  induction s₁ generalizing d with
  | nil => simp [mergeValues_nil_src]
  | cons hd rest ih =>
    obtain ⟨k, v⟩ := hd
    rw [List.cons_append, mergeValues_cons_src, mergeValues_cons_src]
    exact ih (mergeStep d k v)

theorem treeSet_missing (d : ConfigTree) (k : String) (v : GVal)
    (h : k ∉ treeKeys d) : treeSet d k v = d ++ [(k, v)] := by
  induction d with
  | nil => simp [treeSet]
  | cons hd tl ih =>
    obtain ⟨k', w⟩ := hd
    simp only [treeKeys, List.map_cons, List.mem_cons] at h
    push_neg at h
    have : k' ≠ k := fun hh => h.1 hh.symm
    simp [treeSet, this, ih (by simpa [treeKeys] using h.2)]

theorem mergeStep_missing (d : ConfigTree) (k : String) (v : GVal)
    (h : k ∉ treeKeys d) : mergeStep d k v = d ++ [(k, v)] := by
  have hget : treeGet d k = none := treeGet_eq_none_of_not_mem d k h
  cases v with
  | prim s => simp [mergeStep, treeSet_missing d k _ h]
  | seq l => simp [mergeStep, treeSet_missing d k _ h]
  | map nm =>
    have : isMapAt d k = false := by simp [isMapAt, hget]
    simp [mergeStep, this, treeSet_missing d k _ h]

theorem mergeValues_fresh (d s : ConfigTree)
    (hdisj : ∀ key ∈ treeKeys s, key ∉ treeKeys d)
    (hs : (treeKeys s).Nodup) : mergeValues d s = d ++ s := by
  induction s generalizing d with
  | nil => simp [mergeValues_nil_src]
  | cons hd rest ih =>
    obtain ⟨k, v⟩ := hd
    simp only [treeKeys, List.map_cons, List.nodup_cons] at hs
    rw [mergeValues_cons_src]
    rw [mergeStep_missing d k v (hdisj k (by simp [treeKeys]))]
    rw [ih (d ++ [(k, v)]) ?fresh (by simpa [treeKeys] using hs.2)]
    · simp
    case fresh =>
      intro key hkey
      have hnd : key ∉ treeKeys d := by
        refine hdisj key ?_
        simp only [treeKeys, List.map_cons, List.mem_cons]
        right
        simpa [treeKeys] using hkey
      have hne : key ≠ k := by
        intro hh
        subst hh
        exact hs.1 (by simpa [treeKeys] using hkey)
      simp only [treeKeys, List.map_append, List.mem_append] at hnd ⊢
      simp [treeKeys, hne, hnd]

theorem mergeValues_nil_dest (s : ConfigTree) (hs : (treeKeys s).Nodup) :
    mergeValues [] s = s := by
  simpa using mergeValues_fresh [] s (by simp [treeKeys]) hs

/-- C6 fails on the code: with a base holding a subtree at `k`, an
override `A` replacing it by a scalar, and an override `B` replacing that
by a new subtree, `merge(merge(base,A),B)` discards the base's subtree
but `merge(base, merge_sequence([A,B]))` deep-merges it back in. -/
theorem C6_counterexample :
    mergeValues
        (mergeValues [("k", GVal.map [("x", GVal.prim "1")])]
          [("k", GVal.prim "s")])
        [("k", GVal.map [("y", GVal.prim "2")])]
      ≠ mergeValues [("k", GVal.map [("x", GVal.prim "1")])]
          (mergeSequence
            [[("k", GVal.prim "s")], [("k", GVal.map [("y", GVal.prim "2")])]]) := by
  intro h
  have h2 := congrArg (fun t => (mapAt t "k").length) h
  simp [mergeSequence, mergeValues, mergeStep, treeSet, treeGet, isMapAt,
    mapAt] at h2

/-- C6 amended: merging `B` after `A` onto `base` coincides with merging
the single combined tree `merge_sequence([A,B])` whenever `A` and `B`
have disjoint key sets (in general only the fold identity
`merge(base, A ++ B) = merge(merge(base,A), B)` holds; overlapping keys
can differ, see the counterexample). -/
theorem C6_amended_assoc (base A B : ConfigTree)
    (hA : (treeKeys A).Nodup) (hB : (treeKeys B).Nodup)
    (hdisj : ∀ k ∈ treeKeys B, k ∉ treeKeys A) :
    mergeValues (mergeValues base A) B
      = mergeValues base (mergeSequence [A, B]) := by
  have hseq : mergeSequence [A, B] = A ++ B := by
    unfold mergeSequence
    simp only [List.foldl]
    rw [mergeValues_nil_dest A hA]
    exact mergeValues_fresh A B hdisj hB
  rw [hseq, mergeValues_append]

/-- Concrete instance discharging `C6_amended_assoc`'s hypotheses. -/
theorem C6_amended_assoc_witness :
    mergeValues
        (mergeValues [("k", GVal.prim "0")] [("a", GVal.prim "1")])
        [("b", GVal.prim "2")]
      = mergeValues [("k", GVal.prim "0")]
          (mergeSequence [[("a", GVal.prim "1")], [("b", GVal.prim "2")]]) :=
  C6_amended_assoc [("k", GVal.prim "0")] [("a", GVal.prim "1")]
    [("b", GVal.prim "2")] (by simp [treeKeys]) (by simp [treeKeys])
    (by simp [treeKeys])

/-!
Store-passing model of Go's reference semantics for maps, used for the
aliasing questions about `mergeValues`.  A `map[string]interface{}` value
is a reference (`HVal.ref`) to a map object living in a store; assigning
`dest[k] = v` copies the reference, not the object.
-/

/-- A Go value as stored in a map: a non-map value, or a reference to a
map object in the store. -/
inductive HVal where
  | prim (s : String) : HVal
  | ref (a : Nat) : HVal
deriving Inhabited, DecidableEq

/-- A map object: bindings from keys to values. -/
abbrev HMap := List (String × HVal)

/-- The store: map objects indexed by address. -/
abbrev Store := List HMap

/-- The map object at an address. -/
def storeGet (σ : Store) (a : Nat) : HMap := σ.getD a []

/-- Replace the map object at an address. -/
def storeSet (σ : Store) (a : Nat) (m : HMap) : Store := σ.set a m

/-- Read a key of a map object. -/
def hGet : HMap → String → Option HVal
  | [], _ => none
  | (k', v) :: rest, k => if k' = k then some v else hGet rest k

/-- Write a key of a map object. -/
def hSet : HMap → String → HVal → HMap
  | [], k, v => [(k, v)]
  | (k', w) :: rest, k, v =>
    if k' = k then (k, v) :: rest else (k', w) :: hSet rest k v

/-- Embedding of `mergeValues` (src/main.go:149-178) over an explicit
store, keeping Go's reference semantics: `dst` and `src` are addresses of
map objects, and `dest[k] = v` stores the value — for a map value, the
reference itself — into `dst`'s object.  In the map-into-map case the
source assigns `dest[k] = mergeValues(destMap, nextMap)`, and Go's
`mergeValues` returns its first argument's reference, so the entry keeps
its reference and only the store changes.  The Go function returns `dest`;
here the updated store is returned and the result address is `dst`.
Recursion is fueled because an arbitrary store may contain reference
cycles; YAML-decoded stores are acyclic and never exhaust the fuel. -/
def mergeValuesH : Nat → Store → Nat → Nat → Store
  | 0, σ, _, _ => σ
  | Nat.succ fuel, σ, dst, src =>
    (storeGet σ src).foldl
      (fun σ' kv =>
        match hGet (storeGet σ' dst) kv.1 with
        | none => storeSet σ' dst (hSet (storeGet σ' dst) kv.1 kv.2)
        | some w =>
          match kv.2, w with
          | HVal.ref a, HVal.ref b => mergeValuesH fuel σ' b a
          | _, _ => storeSet σ' dst (hSet (storeGet σ' dst) kv.1 kv.2)) σ

theorem hGet_hSet_self (m : HMap) (k : String) (v : HVal) :
    hGet (hSet m k v) k = some v := by
  induction m with
  | nil => simp [hSet, hGet]
  | cons hd tl ih =>
    obtain ⟨k', w⟩ := hd
    by_cases h : k' = k
    · simp [hSet, hGet, h]
    · simp [hSet, hGet, h, ih]

theorem storeGet_storeSet_self (σ : Store) (a : Nat) (m : HMap)
    (h : a < σ.length) : storeGet (storeSet σ a m) a = m := by
  simp [storeGet, storeSet, List.getD_eq_getElem?_getD, List.getElem?_set_self h]

theorem storeGet_storeSet_ne (σ : Store) (a b : Nat) (m : HMap)
    (h : a ≠ b) : storeGet (storeSet σ a m) b = storeGet σ b := by
  simp [storeGet, storeSet, List.getD_eq_getElem?_getD, List.getElem?_set_ne h]

/-- The base, override, and override-subtree objects of the aliasing
counterexample: address 0 is an empty base, address 1 the override
`{k: ref 2}`, address 2 the override's nested map `{x: "1"}`. -/
def aliasStore : Store := [[], [("k", HVal.ref 2)], [("x", HVal.prim "1")]]

/-- The store after merging the override (address 1) into the base
(address 0). -/
def aliasMerged : Store := mergeValuesH 9 aliasStore 0 1

/-- The store after mutating, through the merge result, the nested map
the result holds at key `k` (address 2). -/
def aliasMutated : Store :=
  storeSet aliasMerged 2 (hSet (storeGet aliasMerged 2) "x" (HVal.prim "2"))

/-- C9 fails on the code: merging an override whose key is absent in the
base stores the override's nested-map reference itself into the result,
so the result's entry and the override's entry are the same address, and
a later mutation of the result's subtree is observed through the override
tree. -/
theorem C9_counterexample :
    hGet (storeGet aliasMerged 0) "k" = some (HVal.ref 2) ∧
    hGet (storeGet aliasMerged 1) "k" = some (HVal.ref 2) ∧
    hGet (storeGet aliasMutated 2) "x" = some (HVal.prim "2") ∧
    (match hGet (storeGet aliasMutated 1) "k" with
     | some (HVal.ref b) => hGet (storeGet aliasMutated b) "x"
     | _ => none) = some (HVal.prim "2") :=
  ⟨rfl, rfl, rfl, rfl⟩

/-- C9 amended: `mergeValues` has reference (aliasing) semantics, not
copy semantics — whenever an override key is absent in the destination
and its value is a nested map, the merge stores the override's reference
verbatim, so the result and the override share that nested map. -/
theorem C9_amended_alias (fuel : Nat) (σ : Store) (dst src a : Nat)
    (k : String) (hsrc : storeGet σ src = [(k, HVal.ref a)])
    (hdst : hGet (storeGet σ dst) k = none) (hne : dst ≠ src)
    (hlen : dst < σ.length) (hfuel : 0 < fuel) :
    hGet (storeGet (mergeValuesH fuel σ dst src) dst) k = some (HVal.ref a) ∧
    hGet (storeGet (mergeValuesH fuel σ dst src) src) k = some (HVal.ref a) := by
  cases fuel with
  | zero => omega
  | succ n =>
    simp only [mergeValuesH, hsrc, List.foldl_cons, List.foldl_nil, hdst]
    constructor
    · rw [storeGet_storeSet_self σ dst _ hlen, hGet_hSet_self]
    · rw [storeGet_storeSet_ne σ dst src _ hne, hsrc]
      simp [hGet]

/-- Concrete instance discharging `C9_amended_alias`'s hypotheses on the
counterexample store. -/
theorem C9_amended_alias_witness :
    hGet (storeGet (mergeValuesH 9 aliasStore 0 1) 0) "k"
        = some (HVal.ref 2) ∧
    hGet (storeGet (mergeValuesH 9 aliasStore 0 1) 1) "k"
        = some (HVal.ref 2) :=
  C9_amended_alias 9 aliasStore 0 1 2 "k" rfl rfl (by omega) (by simp [aliasStore])
    (by omega)

/-!
String and path helpers from the Go standard library, as used by
`sortManifests` and `run`: `path.Base`, `strings.HasPrefix(_, "_")`,
`strings.TrimSpace`, `strings.ToLower` (modelled on ASCII, which covers
the fixed hook-name table), and `strings.Split(_, ",")`.
-/

/-- Go's `unicode.IsSpace`: the White_Space code points. -/
def isSpaceGo (c : Char) : Bool :=
  decide (c.toNat = 0x20 ∨ (0x9 ≤ c.toNat ∧ c.toNat ≤ 0xD) ∨ c.toNat = 0x85 ∨
    c.toNat = 0xA0 ∨ c.toNat = 0x1680 ∨ (0x2000 ≤ c.toNat ∧ c.toNat ≤ 0x200A) ∨
    c.toNat = 0x2028 ∨ c.toNat = 0x2029 ∨ c.toNat = 0x202F ∨
    c.toNat = 0x205F ∨ c.toNat = 0x3000)

/-- Go's `strings.TrimSpace`: drop leading and trailing white space. -/
def trimSpaceGo (s : String) : String :=
  String.mk (((s.data.dropWhile isSpaceGo).reverse.dropWhile isSpaceGo).reverse)

/-- Go's `path.Base`: `"."` for the empty path, otherwise strip trailing
slashes and keep everything after the last remaining slash (`"/"` if the
path consisted only of slashes). -/
def pathBase (s : String) : String :=
  if s.data = [] then "."
  else
    let r := s.data.reverse.dropWhile (fun c => c = '/')
    if r = [] then "/"
    else String.mk (r.takeWhile (fun c => c ≠ '/')).reverse

/-- Go's `strings.HasPrefix(s, "_")`: the first character is an
underscore. -/
def headIsUnderscore (s : String) : Bool :=
  match s.data with
  | c :: _ => c = '_'
  | [] => false

/-- Go's `strings.ToLower`, modelled for ASCII (the hook-name table that
its output is compared against is all-ASCII). -/
def toLowerGo (s : String) : String := String.mk (s.data.map Char.toLower)

/-- Go's `strings.Split(s, ",")`, written as structural recursion over
the characters: cut at every comma, keeping empty fields. -/
def splitCommaAux : List Char → List Char → List String
  | [], acc => [String.mk acc.reverse]
  | ch :: rest, acc =>
    if ch = ',' then String.mk acc.reverse :: splitCommaAux rest []
    else splitCommaAux rest (ch :: acc)

/-- Go's `strings.Split(s, ",")`. -/
def splitComma (s : String) : List String := splitCommaAux s.data []

/-!
Data model of classification: the minimal parsed document head (from the
external `releaseutil.SimpleHead`, modelled from the spec's ManifestHead),
the fixed hook table, hooks and generic manifests, and errors.
-/

/-- Modelled from the spec: the metadata part of ManifestHead — a name and
an optional mapping of annotation keys to string values (the external
`SimpleHead` type's `metadata` struct, not under src/). -/
structure HeadMetadata where
  name : String
  annotations : Option (List (String × String))
deriving Inhabited, DecidableEq

/-- Modelled from the spec: the minimal parsed structural view of a
document (ManifestHead): an API version string, a resource kind string,
and optional metadata (the external `releaseutil.SimpleHead`). -/
structure SimpleHead where
  version : String
  kind : String
  metadata : Option HeadMetadata
deriving Inhabited, DecidableEq

/-- Lifecycle events, the targets of the hook-name table
(`release.Hook_Event`). -/
inductive HookEvent where
  | preInstall | postInstall | preDelete | postDelete
  | preUpgrade | postUpgrade | preRollback | postRollback
  | releaseTestSuccess | releaseTestFailure
deriving Inhabited, DecidableEq

/-- Modelled from the spec: the hook annotation key (the external
constant `hooks.HookAnno`). -/
def hookAnno : String := "helm.sh/hook"

/-- The fixed hook-name-to-event table (src/main.go:199-210); the name
strings are modelled from the spec's recognized-name list (§4.2), since
the `hooks` package constants are not under src/. -/
def eventsTable : List (String × HookEvent) :=
  [("pre-install", HookEvent.preInstall),
   ("post-install", HookEvent.postInstall),
   ("pre-delete", HookEvent.preDelete),
   ("post-delete", HookEvent.postDelete),
   ("pre-upgrade", HookEvent.preUpgrade),
   ("post-upgrade", HookEvent.postUpgrade),
   ("pre-rollback", HookEvent.preRollback),
   ("post-rollback", HookEvent.postRollback),
   ("release-test-success", HookEvent.releaseTestSuccess),
   ("release-test-failure", HookEvent.releaseTestFailure)]

/-- Go map lookup `events[hookType]` with its `ok` flag. -/
def eventsLookup (s : String) : Option HookEvent :=
  List.lookup s eventsTable

/-- A hook record (`release.Hook` as populated by `sortManifests`):
name, kind, source path, raw manifest text, recognized events. -/
structure Hook where
  name : String
  kind : String
  path : String
  manifest : String
  events : List HookEvent
deriving Inhabited, DecidableEq

/-- A generic manifest (src/main.go:213-217): name, content, parsed
head. -/
structure manifest where
  name : String
  content : String
  head : SimpleHead
deriving Inhabited, DecidableEq

/-- The two classification failures of `sortManifests`: a YAML parse
error naming the document, or an unavailable apiVersion naming the
version and the document. -/
inductive SMError where
  | parseError (name : String) : SMError
  | versionError (version name : String) : SMError
deriving Inhabited, DecidableEq

/-- Modelled from the spec: the recognized-API-version set handed to the
classifier (`chartutil.DefaultVersionSet`, not under src/); its concrete
contents do not matter to any claim. -/
def DefaultVersionSet : List String := ["v1"]

/-- Go annotation-map lookup with its `ok` flag. -/
def annGet (anns : List (String × String)) (k : String) : Option String :=
  List.lookup k anns

/-- The recognized events of a hook annotation value: split on commas,
trim and lower-case each token, keep the recognized ones in order
(src/main.go:285-293). -/
def recognizedEvents (hookTypes : String) : List HookEvent :=
  (splitComma hookTypes).filterMap (fun t => eventsLookup (toLowerGo (trimSpaceGo t)))

/-!
Embedding of Go's `sort.Sort` (the standard library's pre-1.19
`quickSort` with median-of-nine pivoting, duplicate protection, a
heap-sort depth fallback, and a shell/insertion pass for short ranges),
which `sortByKind` invokes on the generic bucket.  The slice is modelled
as a total function from indices, with all loops written as the
corresponding recursions; `data.Less(i, j)` is `lt (f i) (f j)` and
`data.Swap(i, j)` is `fswap f i j`.
-/

/-- `data.Swap(i, j)` on a slice modelled as a function. -/
def fswap {α : Type} (f : Nat → α) (i j : Nat) : Nat → α :=
  fun x => if x = i then f j else if x = j then f i else f x

/-- The inner insertion loop: `for j := i; j > a && data.Less(j, j-1); j--`
with a swap each iteration. -/
def insInner {α : Type} (lt : α → α → Bool) (f : Nat → α) (j lo : Nat) :
    Nat → α :=
  if h : lo < j ∧ lt (f j) (f (j-1)) = true then
    insInner lt (fswap f j (j-1)) (j-1) lo
  else f
termination_by j
decreasing_by omega

/-- The outer insertion loop: `for i := a+1; i < b; i++`. -/
def insOuter {α : Type} (lt : α → α → Bool) (f : Nat → α) (i hi lo : Nat) :
    Nat → α :=
  if h : i < hi then insOuter lt (insInner lt f i lo) (i+1) hi lo else f
termination_by hi - i
decreasing_by omega

/-- Go's `insertionSort(data, a, b)`. -/
def insertionSortF {α : Type} (lt : α → α → Bool) (f : Nat → α)
    (lo hi : Nat) : Nat → α :=
  insOuter lt f (lo+1) hi lo

/-- The gap-6 shell pass done before insertion sort on ranges of at most
12 elements: `for i := a + 6; i < b; i++ { if data.Less(i, i-6) {
data.Swap(i, i-6) } }`. -/
def shellPass {α : Type} (lt : α → α → Bool) (f : Nat → α) (i hi : Nat) :
    Nat → α :=
  if h : i < hi then
    shellPass lt (if lt (f i) (f (i-6)) then fswap f i (i-6) else f) (i+1) hi
  else f
termination_by hi - i
decreasing_by omega

/-- The child selected by `siftDown`: the left child `c0`, or the right
child when it exists and compares greater. -/
def pickChild {α : Type} (lt : α → α → Bool) (f : Nat → α)
    (first hi c0 : Nat) : Nat :=
  if c0 + 1 < hi ∧ lt (f (first+c0)) (f (first+c0+1)) = true then c0 + 1 else c0

theorem pickChild_lt {α : Type} (lt : α → α → Bool) (f : Nat → α)
    (first hi c0 : Nat) (h : c0 < hi) : pickChild lt f first hi c0 < hi := by
  unfold pickChild
  split <;> omega

theorem pickChild_ge {α : Type} (lt : α → α → Bool) (f : Nat → α)
    (first hi c0 : Nat) : c0 ≤ pickChild lt f first hi c0 := by
  unfold pickChild
  split <;> omega

/-- Go's `siftDown(data, lo, hi, first)` (`lo` here named `root`). -/
def siftDownF {α : Type} (lt : α → α → Bool) (f : Nat → α)
    (root hi first : Nat) : Nat → α :=
  if h : 2*root + 1 < hi then
    if lt (f (first+root)) (f (first + pickChild lt f first hi (2*root+1))) = true then
      siftDownF lt (fswap f (first+root) (first + pickChild lt f first hi (2*root+1)))
        (pickChild lt f first hi (2*root+1)) hi first
    else f
  else f
termination_by hi - root
decreasing_by
  have h1 := pickChild_ge lt f first hi (2*root + 1)
  have h2 := pickChild_lt lt f first hi (2*root + 1) h
  omega

/-- The heap-building phase of `heapSort`: `for i := (hi-1)/2; i >= 0;
i--` (the index counts down to and including 0). -/
def heapBuildF {α : Type} (lt : α → α → Bool) (f : Nat → α)
    (i hi first : Nat) : Nat → α :=
  match i with
  | 0 => siftDownF lt f 0 hi first
  | Nat.succ i' => heapBuildF lt (siftDownF lt f (Nat.succ i') hi first) i' hi first

/-- The pop phase of `heapSort`: `for i := hi-1; i >= 0; i-- {
data.Swap(first, first+i); siftDown(data, lo, i, first) }`. -/
def heapPopF {α : Type} (lt : α → α → Bool) (f : Nat → α)
    (i first : Nat) : Nat → α :=
  match i with
  | 0 => siftDownF lt (fswap f first first) 0 0 first
  | Nat.succ i' =>
    heapPopF lt (siftDownF lt (fswap f first (first + Nat.succ i')) 0 (Nat.succ i') first) i' first

/-- Go's `heapSort(data, a, b)`: indices are made relative to
`first = a` with the heap occupying `[0, b-a)`. -/
def heapSortF {α : Type} (lt : α → α → Bool) (f : Nat → α)
    (lo hi : Nat) : Nat → α :=
  heapPopF lt (heapBuildF lt f ((hi - lo - 1) / 2) (hi - lo) lo) (hi - lo - 1) lo

/-- The two-element step of `medianOfThree`: `if data.Less(m1, m0) {
data.Swap(m1, m0) }` (it appears twice in the Go body, also as its final
conditional swap). -/
def med3Step {α : Type} (lt : α → α → Bool) (f : Nat → α)
    (m1 m0 : Nat) : Nat → α :=
  if lt (f m1) (f m0) = true then fswap f m1 m0 else f

/-- Go's `medianOfThree(data, m1, m0, m2)`: sorts the three elements so
that `data[m0] <= data[m1] <= data[m2]`. -/
def medianOfThreeF {α : Type} (lt : α → α → Bool) (f : Nat → α)
    (m1 m0 m2 : Nat) : Nat → α :=
  if lt (med3Step lt f m1 m0 m2) (med3Step lt f m1 m0 m1) = true then
    med3Step lt (fswap (med3Step lt f m1 m0) m2 m1) m1 m0
  else med3Step lt f m1 m0

/-- `doPivot`'s opening scan: `for ; a < c && data.Less(a, pivot); a++`. -/
def advA {α : Type} (lt : α → α → Bool) (f : Nat → α) (pivot a c : Nat) :
    Nat :=
  if h : a < c ∧ lt (f a) (f pivot) = true then advA lt f pivot (a+1) c else a
termination_by c - a
decreasing_by omega

/-- The partition loop's forward scan: `for ; b < c && !data.Less(pivot,
b); b++`. -/
def advB {α : Type} (lt : α → α → Bool) (f : Nat → α) (pivot b c : Nat) :
    Nat :=
  if h : b < c ∧ lt (f pivot) (f b) = false then advB lt f pivot (b+1) c else b
termination_by c - b
decreasing_by omega

/-- The partition loop's backward scan: `for ; b < c && data.Less(pivot,
c-1); c--`. -/
def retC {α : Type} (lt : α → α → Bool) (f : Nat → α) (pivot b c : Nat) :
    Nat :=
  if h : b < c ∧ lt (f pivot) (f (c-1)) = true then retC lt f pivot b (c-1) else c
termination_by c
decreasing_by omega

theorem advB_ge {α : Type} (lt : α → α → Bool) (f : Nat → α)
    (pivot b c : Nat) : b ≤ advB lt f pivot b c := by
  unfold advB
  split
  · have := advB_ge lt f pivot (b+1) c
    omega
  · omega
termination_by c - b
decreasing_by omega

theorem advB_le {α : Type} (lt : α → α → Bool) (f : Nat → α)
    (pivot b c : Nat) (h : b ≤ c) : advB lt f pivot b c ≤ c := by
  unfold advB
  split
  · next h' => exact advB_le lt f pivot (b+1) c (by omega)
  · omega
termination_by c - b
decreasing_by omega

theorem retC_le {α : Type} (lt : α → α → Bool) (f : Nat → α)
    (pivot b c : Nat) : retC lt f pivot b c ≤ c := by
  unfold retC
  split
  · have := retC_le lt f pivot b (c-1)
    omega
  · omega
termination_by c
decreasing_by omega

theorem retC_ge {α : Type} (lt : α → α → Bool) (f : Nat → α)
    (pivot b c : Nat) (h : b ≤ c) : b ≤ retC lt f pivot b c := by
  unfold retC
  split
  · next h' => exact retC_ge lt f pivot b (c-1) (by omega)
  · omega
termination_by c
decreasing_by omega


/-- `doPivot`'s main partition loop: advance `b`, retreat `c`, and swap
`data[b]` with `data[c-1]` until the scans meet. -/
def partLoop {α : Type} (lt : α → α → Bool) (f : Nat → α)
    (pivot b c : Nat) : (Nat → α) × Nat × Nat :=
  if h : advB lt f pivot b c < retC lt f pivot (advB lt f pivot b c) c then
    partLoop lt
      (fswap f (advB lt f pivot b c)
        (retC lt f pivot (advB lt f pivot b c) c - 1))
      pivot (advB lt f pivot b c + 1)
      (retC lt f pivot (advB lt f pivot b c) c - 1)
  else (f, advB lt f pivot b c, retC lt f pivot (advB lt f pivot b c) c)
termination_by c - b
decreasing_by
  have h1 := advB_ge lt f pivot b c
  have h2 := retC_le lt f pivot (advB lt f pivot b c) c
  omega

/-- The duplicate-protection loop's backward scan: `for ; a < b &&
!data.Less(b-1, pivot); b--`. -/
def protBDown {α : Type} (lt : α → α → Bool) (f : Nat → α)
    (pivot a b : Nat) : Nat :=
  if h : a < b ∧ lt (f (b-1)) (f pivot) = false then
    protBDown lt f pivot a (b-1)
  else b
termination_by b
decreasing_by omega

/-- The duplicate-protection loop's forward scan: `for ; a < b &&
data.Less(a, pivot); a++`. -/
def protAUp {α : Type} (lt : α → α → Bool) (f : Nat → α)
    (pivot a b : Nat) : Nat :=
  if h : a < b ∧ lt (f a) (f pivot) = true then protAUp lt f pivot (a+1) b else a
termination_by b - a
decreasing_by omega

theorem protBDown_le {α : Type} (lt : α → α → Bool) (f : Nat → α)
    (pivot a b : Nat) : protBDown lt f pivot a b ≤ b := by
  unfold protBDown
  split
  · have := protBDown_le lt f pivot a (b-1)
    omega
  · omega
termination_by b
decreasing_by omega

theorem protBDown_ge {α : Type} (lt : α → α → Bool) (f : Nat → α)
    (pivot a b : Nat) (h : a ≤ b) : a ≤ protBDown lt f pivot a b := by
  unfold protBDown
  split
  · next h' => exact protBDown_ge lt f pivot a (b-1) (by omega)
  · omega
termination_by b
decreasing_by omega

theorem protAUp_ge {α : Type} (lt : α → α → Bool) (f : Nat → α)
    (pivot a b : Nat) : a ≤ protAUp lt f pivot a b := by
  unfold protAUp
  split
  · have := protAUp_ge lt f pivot (a+1) b
    omega
  · omega
termination_by b - a
decreasing_by omega

theorem protAUp_le {α : Type} (lt : α → α → Bool) (f : Nat → α)
    (pivot a b : Nat) (h : a ≤ b) : protAUp lt f pivot a b ≤ b := by
  unfold protAUp
  split
  · next h' => exact protAUp_le lt f pivot (a+1) b (by omega)
  · omega
termination_by b - a
decreasing_by omega

/-- The duplicate-protection loop of `doPivot`, entered under `protect`:
moves elements equal to the pivot into the `[b, c)` band. -/
def protLoop {α : Type} (lt : α → α → Bool) (f : Nat → α)
    (pivot a b : Nat) : (Nat → α) × Nat :=
  if h : protAUp lt f pivot a (protBDown lt f pivot a b) <
      protBDown lt f pivot a b then
    protLoop lt
      (fswap f (protAUp lt f pivot a (protBDown lt f pivot a b))
        (protBDown lt f pivot a b - 1))
      pivot (protAUp lt f pivot a (protBDown lt f pivot a b) + 1)
      (protBDown lt f pivot a b - 1)
  else (f, protBDown lt f pivot a b)
termination_by b - a
decreasing_by
  have h1 := protBDown_le lt f pivot a b
  have h2 := protAUp_ge lt f pivot a (protBDown lt f pivot a b)
  omega

/-- `m := lo + (hi-lo)/2` in `doPivot`. -/
def pivotM (lo hi : Nat) : Nat := lo + (hi - lo) / 2

/-- The median-of-nine pre-pass (Tukey ninther) run for ranges over 40
elements: three `medianOfThree` calls on the edges and middle. -/
def ninther {α : Type} (lt : α → α → Bool) (f : Nat → α) (lo hi : Nat) :
    Nat → α :=
  medianOfThreeF lt
    (medianOfThreeF lt
      (medianOfThreeF lt f lo (lo + (hi-lo)/8) (lo + 2*((hi-lo)/8)))
      (pivotM lo hi) (pivotM lo hi - (hi-lo)/8) (pivotM lo hi + (hi-lo)/8))
    (hi-1) (hi-1 - (hi-lo)/8) (hi-1 - 2*((hi-lo)/8))

/-- Pivot selection of `doPivot`: the optional ninther followed by
`medianOfThree(lo, m, hi-1)`, leaving the pivot value at `lo`. -/
def pivotPrep {α : Type} (lt : α → α → Bool) (f : Nat → α) (lo hi : Nat) :
    Nat → α :=
  medianOfThreeF lt (if 40 < hi - lo then ninther lt f lo hi else f)
    lo (pivotM lo hi) (hi-1)

/-- `a` after `doPivot`'s opening scan `for ; a < c && data.Less(a,
pivot); a++`. -/
def pivotA0 {α : Type} (lt : α → α → Bool) (f : Nat → α) (lo hi : Nat) :
    Nat :=
  advA lt (pivotPrep lt f lo hi) lo (lo+1) (hi-1)

/-- The state `(data, b, c)` after `doPivot`'s main partition loop. -/
def pivotPart {α : Type} (lt : α → α → Bool) (f : Nat → α) (lo hi : Nat) :
    (Nat → α) × Nat × Nat :=
  partLoop lt (pivotPrep lt f lo hi) lo (pivotA0 lt f lo hi) (hi-1)

/-- `b` after the second duplicate probe `if !data.Less(b-1, pivot) {
b-- }`. -/
def dpB1 {α : Type} (lt : α → α → Bool) (fd1 : Nat → α) (lo b0 : Nat) :
    Nat :=
  if lt (fd1 (b0-1)) (fd1 lo) = false then b0 - 1 else b0

/-- `dups` after the second duplicate probe. -/
def dpD2 {α : Type} (lt : α → α → Bool) (fd1 : Nat → α) (lo b0 d1 : Nat) :
    Nat :=
  if lt (fd1 (b0-1)) (fd1 lo) = false then d1 + 1 else d1

/-- The tail of `doPivot` after the duplicate probes: run the protection
loop when more than one duplicate was seen, then swap the pivot into
place and return `(b-1, c)`. -/
def dpDupAfter2 {α : Type} (lt : α → α → Bool) (fd2 : Nat → α)
    (lo a0 b2 c1 d3 : Nat) : (Nat → α) × Nat × Nat :=
  if 1 < d3 then
    (fswap (protLoop lt fd2 lo a0 b2).1 lo ((protLoop lt fd2 lo a0 b2).2 - 1),
     (protLoop lt fd2 lo a0 b2).2 - 1, c1)
  else (fswap fd2 lo (b2-1), b2-1, c1)

/-- The duplicate block from its second probe on: `if !data.Less(b-1,
pivot) { b--; dups++ }`, then `if !data.Less(m, pivot) { data.Swap(m,
b-1); b--; dups++ }`, then the tail. -/
def dpDupAfter1 {α : Type} (lt : α → α → Bool) (fd1 : Nat → α)
    (lo m a0 b0 c1 d1 : Nat) : (Nat → α) × Nat × Nat :=
  dpDupAfter2 lt
    (if lt (fd1 m) (fd1 lo) = false then
      fswap fd1 m (dpB1 lt fd1 lo b0 - 1) else fd1)
    lo a0
    (if lt (fd1 m) (fd1 lo) = false then dpB1 lt fd1 lo b0 - 1
     else dpB1 lt fd1 lo b0)
    c1
    (if lt (fd1 m) (fd1 lo) = false then dpD2 lt fd1 lo b0 d1 + 1
     else dpD2 lt fd1 lo b0 d1)

/-- The whole duplicate block of `doPivot`, entered when `hi-c <
(hi-lo)/4` and not yet protected: the first probe `if !data.Less(pivot,
hi-1) { data.Swap(c, hi-1); c++; dups++ }` followed by the rest. -/
def dpDup {α : Type} (lt : α → α → Bool) (f2 : Nat → α)
    (lo hi m a0 b0 c0 : Nat) : (Nat → α) × Nat × Nat :=
  dpDupAfter1 lt
    (if lt (f2 lo) (f2 (hi-1)) = false then fswap f2 c0 (hi-1) else f2)
    lo m a0 b0
    (if lt (f2 lo) (f2 (hi-1)) = false then c0 + 1 else c0)
    (if lt (f2 lo) (f2 (hi-1)) = false then 1 else 0)

/-- Go's `doPivot(data, lo, hi)`: pivot selection, the opening scan, the
main partition loop, then either immediate protection (`hi-c < 5`), the
duplicate block (`hi-c < (hi-lo)/4`), or the plain finish; finally the
pivot is swapped into place and `(midlo, midhi)` returned. -/
def doPivotF {α : Type} (lt : α → α → Bool) (f : Nat → α) (lo hi : Nat) :
    (Nat → α) × Nat × Nat :=
  if hi - (pivotPart lt f lo hi).2.2 < 5 then
    dpDupAfter2 lt (pivotPart lt f lo hi).1 lo (pivotA0 lt f lo hi)
      (pivotPart lt f lo hi).2.1 (pivotPart lt f lo hi).2.2 2
  else if hi - (pivotPart lt f lo hi).2.2 < (hi - lo) / 4 then
    dpDup lt (pivotPart lt f lo hi).1 lo hi (pivotM lo hi)
      (pivotA0 lt f lo hi) (pivotPart lt f lo hi).2.1
      (pivotPart lt f lo hi).2.2
  else
    dpDupAfter2 lt (pivotPart lt f lo hi).1 lo (pivotA0 lt f lo hi)
      (pivotPart lt f lo hi).2.1 (pivotPart lt f lo hi).2.2 0

/-- Go's `quickSort(data, a, b, maxDepth)`: partition down to ranges of
at most 12 elements (falling back to heap sort when the depth budget is
exhausted), then finish each short range with the gap-6 shell pass and an
insertion sort. -/
def quickSortF {α : Type} (lt : α → α → Bool) (f : Nat → α)
    (lo hi depth : Nat) : Nat → α :=
  if h12 : 12 < hi - lo then
    if hd : depth = 0 then heapSortF lt f lo hi
    else
      let d := depth - 1
      let r := doPivotF lt f lo hi
      if r.2.1 - lo < hi - r.2.2 then
        quickSortF lt (quickSortF lt r.1 lo r.2.1 d) r.2.2 hi d
      else
        quickSortF lt (quickSortF lt r.1 r.2.2 hi d) lo r.2.1 d
  else
    if 1 < hi - lo then
      insertionSortF lt (shellPass lt f (lo+6) hi) lo hi
    else f
termination_by depth
decreasing_by all_goals omega

/-- Go's `maxDepth(n)` helper: `for i := n; i > 0; i >>= 1 { depth++ };
return depth * 2`. -/
def bitsCount (n : Nat) : Nat :=
  if h : n = 0 then 0 else bitsCount (n / 2) + 1
termination_by n
decreasing_by exact Nat.div_lt_self (Nat.pos_of_ne_zero h) (by omega)

/-- The depth budget `maxDepth(n)` handed to `quickSort` by `Sort`. -/
def maxDepthGo (n : Nat) : Nat := bitsCount n * 2

/-- Go's `sort.Sort` on a slice given as a list: run `quickSort` over the
function model of the slice and read the result back off. -/
def goSortList {α : Type} (lt : α → α → Bool) (l : List α) : List α :=
  match l with
  | [] => []
  | d :: rest =>
    let n := rest.length + 1
    (List.range n).map
      (quickSortF lt (fun j => (d :: rest).getD j d) 0 n (maxDepthGo n))

/-- `SortOrder` (src/main.go:308): an ordering of kinds. -/
abbrev SortOrder := List String

/-- `InstallOrder` (src/main.go:311-332). -/
def InstallOrder : SortOrder :=
  ["Project", "Secret", "ConfigMap", "PersistentVolume",
   "PersistentVolumeClaim", "ServiceAccount", "ClusterRole",
   "ClusterRoleBinding", "Role", "RoleBinding", "ImageStream", "Service",
   "BuildConfig", "Pod", "ReplicationController", "Deployment",
   "DeploymentConfig", "DaemonSet", "Ingress", "Job"]

/-- Read of the kind sorter's ordering map with its `ok` flag. -/
def ordGet : List (String × Nat) → String → Option Nat
  | [], _ => none
  | (k', w) :: rest, k => if k' = k then some w else ordGet rest k

/-- Write `o[k] = v` on the ordering map. -/
def ordSet : List (String × Nat) → String → Nat → List (String × Nat)
  | [], k, v => [(k, v)]
  | (k', w) :: rest, k, v =>
    if k' = k then (k, v) :: rest else (k', w) :: ordSet rest k v

/-- The loop of `newKindSorter` (src/main.go:348-358): `for v, k := range
s { o[k] = v }`. -/
def buildOrderingAux : List String → Nat → List (String × Nat) → List (String × Nat)
  | [], _, o => o
  | k :: rest, v, o => buildOrderingAux rest (v+1) (ordSet o k v)

/-- The ordering map of `newKindSorter`: kind to index in the order. -/
def buildOrdering (s : SortOrder) : List (String × Nat) :=
  buildOrderingAux s 0 []

/-- `kindSorter.Less` (src/main.go:364-377): a manifest with unknown
kind is never less than anything; a known kind is less than an unknown
one; two known kinds compare by rank. -/
def kindSorterLess (o : List (String × Nat)) (a b : manifest) : Bool :=
  match ordGet o a.head.kind with
  | none => false
  | some ra =>
    match ordGet o b.head.kind with
    | none => true
    | some rb => decide (ra < rb)

/-- `sortByKind` (src/main.go:337-341): in-place `sort.Sort` of the
manifests under `kindSorter.Less`. -/
def sortByKind (ms : List manifest) (ordering : SortOrder) : List manifest :=
  goSortList (kindSorterLess (buildOrdering ordering)) ms

/-- The loop of `sortManifests` (src/main.go:244-299), parameterized by
the external YAML parser (`yaml.Unmarshal` into a `SimpleHead`; `none`
models a parse error): skip partials and blank documents, fail on a parse
error or an unavailable apiVersion (returning the buckets accumulated so
far), file documents without a hook annotation under `generic`, and give
annotated documents one `Hook` carrying every recognized event — or drop
them entirely when no event is recognized. -/
def sortManifestsLoop (parse : String → Option SimpleHead)
    (apis : List String) :
    List (String × String) → List Hook → List manifest →
      List Hook × List manifest × Option SMError
  | [], hs, generic => (hs, generic, none)
  | (n, c) :: rest, hs, generic =>
    if headIsUnderscore (pathBase n) then
      sortManifestsLoop parse apis rest hs generic
    else if (trimSpaceGo c).length = 0 then
      sortManifestsLoop parse apis rest hs generic
    else
      match parse c with
      | none => (hs, generic, some (SMError.parseError n))
      | some sh =>
        if sh.version ≠ "" ∧ ¬ apis.contains sh.version then
          (hs, generic, some (SMError.versionError sh.version n))
        else
          match sh.metadata with
          | none => sortManifestsLoop parse apis rest hs (generic ++ [⟨n, c, sh⟩])
          | some md =>
            match md.annotations with
            | none => sortManifestsLoop parse apis rest hs (generic ++ [⟨n, c, sh⟩])
            | some anns =>
              if anns.length = 0 then
                sortManifestsLoop parse apis rest hs (generic ++ [⟨n, c, sh⟩])
              else
                match annGet anns hookAnno with
                | none => sortManifestsLoop parse apis rest hs (generic ++ [⟨n, c, sh⟩])
                | some hookTypes =>
                  if recognizedEvents hookTypes = [] then
                    sortManifestsLoop parse apis rest hs generic
                  else
                    sortManifestsLoop parse apis rest
                      (hs ++ [⟨md.name, sh.kind, n, c, recognizedEvents hookTypes⟩])
                      generic

/-- `sortManifests` (src/main.go:240-301): run the classification loop
over the rendered files (the Go map's iteration order made explicit as
list order); on success the generic bucket is sorted by kind, while the
error returns pass the accumulated buckets through unsorted. -/
def sortManifests (parse : String → Option SimpleHead)
    (files : List (String × String)) (apis : List String)
    (ord : SortOrder) : List Hook × List manifest × Option SMError :=
  match sortManifestsLoop parse apis files [] [] with
  | (hs, generic, none) => (hs, sortByKind generic ord, none)
  | (hs, generic, some e) => (hs, generic, some e)

/-- The manifest-printing tail of `run` (src/main.go:105-117): the error
returned by `sortManifests` is bound but never consulted, and every
manifest in the returned bucket (other than `NOTES.txt` without `--notes`
and `_`-prefixed base names) is printed. -/
def runOutput (parse : String → Option SimpleHead) (showNotes : Bool)
    (files : List (String × String)) : List (String × String) :=
  (sortManifests parse files DefaultVersionSet InstallOrder).2.1.filterMap
    (fun m =>
      if showNotes = false ∧ pathBase m.name = "NOTES.txt" then none
      else if headIsUnderscore (pathBase m.name) then none
      else some (m.name, m.content))

/-!
Correctness of the embedded `sort.Sort`.  Effects are tracked with
`PermWithin lo hi f g`: `g` is `f` composed with a permutation of indices
that fixes everything outside `[lo, hi)`.  Order facts are stated against
an abstract numeric key `kf` that represents the comparator
(`kindSorterLess` is such a key comparison, shown later).
-/

/-- The result `g` is a rearrangement of `f` inside `[lo, hi)` that
leaves every index outside `[lo, hi)` untouched. -/
def PermWithin {α : Type} (lo hi : Nat) (f g : Nat → α) : Prop :=
  ∃ π : Equiv.Perm Nat,
    (∀ x, g x = f (π x)) ∧ (∀ x, x < lo ∨ hi ≤ x → π x = x)

theorem PermWithin.refl {α : Type} (lo hi : Nat) (f : Nat → α) :
    PermWithin lo hi f f :=
  ⟨Equiv.refl Nat, fun _ => rfl, fun _ _ => rfl⟩

theorem PermWithin.trans {α : Type} {lo hi : Nat} {f g h : Nat → α}
    (h1 : PermWithin lo hi f g) (h2 : PermWithin lo hi g h) :
    PermWithin lo hi f h := by
  obtain ⟨π1, hg, hfix1⟩ := h1
  obtain ⟨π2, hh, hfix2⟩ := h2
  refine ⟨π2.trans π1, fun x => ?_, fun x hx => ?_⟩
  · rw [hh, hg]
    rfl
  · simp [Equiv.trans_apply, hfix2 x hx, hfix1 x hx]

theorem permWithin_fswap {α : Type} {lo hi i j : Nat} (f : Nat → α)
    (hi1 : lo ≤ i) (hi2 : i < hi) (hj1 : lo ≤ j) (hj2 : j < hi) :
    PermWithin lo hi f (fswap f i j) := by
  refine ⟨Equiv.swap i j, fun x => ?_, fun x hx => ?_⟩
  · unfold fswap
    by_cases h1 : x = i
    · simp [h1, Equiv.swap_apply_left]
    · by_cases h2 : x = j
      · subst h2
        simp [Equiv.swap_apply_right, fun hh => h1 hh]
      · simp [h1, h2, Equiv.swap_apply_of_ne_of_ne h1 h2]
  · apply Equiv.swap_apply_of_ne_of_ne <;> omega

theorem PermWithin.mono {α : Type} {lo hi lo' hi' : Nat} {f g : Nat → α}
    (h : PermWithin lo hi f g) (hlo : lo' ≤ lo) (hhi : hi ≤ hi') :
    PermWithin lo' hi' f g := by
  obtain ⟨π, hg, hfix⟩ := h
  exact ⟨π, hg, fun x hx => hfix x (by omega)⟩

theorem PermWithin.outside {α : Type} {lo hi : Nat} {f g : Nat → α}
    (h : PermWithin lo hi f g) (x : Nat) (hx : x < lo ∨ hi ≤ x) :
    g x = f x := by
  obtain ⟨π, hg, hfix⟩ := h
  rw [hg, hfix x hx]

theorem PermWithin.maps_range {α : Type} {lo hi : Nat} {f g : Nat → α}
    (h : PermWithin lo hi f g) :
    ∀ x, lo ≤ x → x < hi → ∃ y, lo ≤ y ∧ y < hi ∧ g x = f y := by
  obtain ⟨π, hg, hfix⟩ := h
  intro x hx1 hx2
  refine ⟨π x, ?_, ?_, hg x⟩
  all_goals
    by_contra hc
    push_neg at hc
    have hfx : π (π x) = π x := hfix (π x) (by omega)
    have := π.injective hfx
    omega

/-- Transfer of a valuewise bound on a range across a `PermWithin`. -/
theorem PermWithin.bound {α : Type} {lo hi : Nat} {f g : Nat → α}
    (h : PermWithin lo hi f g) (P : α → Prop)
    (hb : ∀ x, lo ≤ x → x < hi → P (f x)) :
    ∀ x, lo ≤ x → x < hi → P (g x) := by
  intro x hx1 hx2
  obtain ⟨y, hy1, hy2, hy3⟩ := h.maps_range x hx1 hx2
  rw [hy3]
  exact hb y hy1 hy2

/-- All-pairs sortedness of the keys of `f` on `[lo, hi)`. -/
def sortedOn {α : Type} (kf : α → Nat) (f : Nat → α) (lo hi : Nat) : Prop :=
  ∀ p q, lo ≤ p → p ≤ q → q < hi → kf (f p) ≤ kf (f q)

theorem sortedOn_restrict {α : Type} {kf : α → Nat} {f : Nat → α}
    {lo hi lo' hi' : Nat} (h : sortedOn kf f lo hi) (hlo : lo ≤ lo')
    (hhi : hi' ≤ hi) : sortedOn kf f lo' hi' :=
  fun p q hp hpq hq => h p q (by omega) hpq (by omega)

theorem sortedOn_empty {α : Type} (kf : α → Nat) (f : Nat → α) {lo hi : Nat}
    (h : hi ≤ lo + 1) : sortedOn kf f lo hi := by
  intro p q hp hpq hq
  have : p = q := by omega
  rw [this]

theorem fswap_fst {α : Type} (f : Nat → α) (i j : Nat) :
    fswap f i j i = f j := by
  unfold fswap
  simp

theorem fswap_snd {α : Type} (f : Nat → α) (i j : Nat) :
    fswap f i j j = f i := by
  unfold fswap
  by_cases h : j = i
  · subst h
    simp
  · simp [h]

theorem fswap_other {α : Type} (f : Nat → α) {i j x : Nat}
    (hx1 : x ≠ i) (hx2 : x ≠ j) : fswap f i j x = f x := by
  unfold fswap
  simp [hx1, hx2]

/-- The inner insertion loop sorts `[lo, top)` when everything but the
element at `j` is in place: `[lo, j)` and `[j, top)` are each sorted and
every element of `[lo, j)` is below every element of `[j+1, top)`. -/
theorem insInner_spec {α : Type} (lt : α → α → Bool) (kf : α → Nat)
    (hk : ∀ x y, lt x y = true ↔ kf x < kf y)
    (f : Nat → α) (j lo top : Nat) (hjlo : lo ≤ j) (hjtop : j < top)
    (hl : sortedOn kf f lo j) (hr : sortedOn kf f j top)
    (hcross : ∀ p q, lo ≤ p → p < j → j + 1 ≤ q → q < top →
      kf (f p) ≤ kf (f q)) :
    sortedOn kf (insInner lt f j lo) lo top ∧
      PermWithin lo top f (insInner lt f j lo) := by
  unfold insInner
  split
  case isTrue hcond =>
    obtain ⟨hlj, hlt⟩ := hcond
    have hkey : kf (f j) < kf (f (j-1)) := (hk _ _).mp hlt
    have hgl : fswap f j (j-1) (j-1) = f j := fswap_snd f j (j-1)
    have hgj : fswap f j (j-1) j = f (j-1) := fswap_fst f j (j-1)
    have hgo : ∀ x, x ≠ j → x ≠ j - 1 → fswap f j (j-1) x = f x :=
      fun x h1 h2 => fswap_other f h1 h2
    have hl' : sortedOn kf (fswap f j (j-1)) lo (j-1) := by
      intro p q hp hpq hq
      rw [hgo p (by omega) (by omega), hgo q (by omega) (by omega)]
      exact hl p q hp hpq (by omega)
    have hr' : sortedOn kf (fswap f j (j-1)) (j-1) top := by
      intro p q hp hpq hq
      by_cases hp1 : p = j - 1
      · subst hp1
        rw [hgl]
        by_cases hq1 : q = j - 1
        · rw [hq1, hgl]
        · by_cases hq2 : q = j
          · rw [hq2, hgj]
            omega
          · rw [hgo q hq2 hq1]
            exact hr j q (le_refl j) (by omega) hq
      · by_cases hp2 : p = j
        · by_cases hq2 : q = j
          · rw [hp2, hq2]
          · rw [hp2, hgj, hgo q hq2 (by omega)]
            exact hcross (j-1) q (by omega) (by omega) (by omega) hq
        · rw [hgo p hp2 hp1]
          have hq1 : q ≠ j - 1 := by omega
          by_cases hq2 : q = j
          · omega
          · rw [hgo q hq2 hq1]
            exact hr p q (by omega) hpq hq
    have hcross' : ∀ p q, lo ≤ p → p < j - 1 → (j - 1) + 1 ≤ q → q < top →
        kf (fswap f j (j-1) p) ≤ kf (fswap f j (j-1) q) := by
      intro p q hp hpj hq1 hq2
      rw [hgo p (by omega) (by omega)]
      by_cases hq3 : q = j
      · rw [hq3, hgj]
        exact hl p (j-1) hp (by omega) (by omega)
      · rw [hgo q hq3 (by omega)]
        exact hcross p q hp (by omega) (by omega) hq2
    have ihres := insInner_spec lt kf hk (fswap f j (j-1)) (j-1) lo top
      (by omega) (by omega) hl' hr' hcross'
    refine ⟨ihres.1, ?_⟩
    exact PermWithin.trans
      (permWithin_fswap f (by omega) hjtop (by omega) (by omega)) ihres.2
  case isFalse hcond =>
    by_cases hje : lo < j
    · have hltf : lt (f j) (f (j-1)) = false := by
        rcases Bool.eq_false_or_eq_true (lt (f j) (f (j-1))) with hb | hb
        · exact absurd ⟨hje, hb⟩ hcond
        · exact hb
      have hbridge : kf (f (j-1)) ≤ kf (f j) := by
        by_contra hc
        have := (hk (f j) (f (j-1))).mpr (by omega)
        rw [hltf] at this
        exact Bool.false_ne_true this
      refine ⟨?_, PermWithin.refl lo top f⟩
      intro p q hp hpq hq
      by_cases hq1 : q < j
      · exact hl p q hp hpq hq1
      · by_cases hp1 : j ≤ p
        · exact hr p q hp1 hpq hq
        · by_cases hq2 : q = j
          · subst hq2
            exact (hl p (q-1) hp (by omega) (by omega)).trans hbridge
          · exact hcross p q hp (by omega) (by omega) hq
    · have hje' : j = lo := by omega
      subst hje'
      exact ⟨fun p q hp hpq hq => hr p q hp hpq hq, PermWithin.refl j top f⟩
termination_by j
decreasing_by omega

/-- The outer insertion loop: if `[lo, i)` is sorted, the loop leaves
`[lo, hi)` sorted, rearranging only inside `[lo, hi)`. -/
theorem insOuter_spec {α : Type} (lt : α → α → Bool) (kf : α → Nat)
    (hk : ∀ x y, lt x y = true ↔ kf x < kf y)
    (f : Nat → α) (i hi lo : Nat) (hlo : lo < i)
    (hinv : sortedOn kf f lo i) :
    sortedOn kf (insOuter lt f i hi lo) lo hi ∧
      PermWithin lo hi f (insOuter lt f i hi lo) := by
  unfold insOuter
  split
  case isTrue hcond =>
    have hstep := insInner_spec lt kf hk f i lo (i+1) (by omega) (by omega)
      hinv (sortedOn_empty kf f (le_refl (i+1)))
      (fun p q hp hpj hq1 hq2 => by omega)
    have ihres := insOuter_spec lt kf hk (insInner lt f i lo) (i+1) hi lo
      (by omega) hstep.1
    refine ⟨ihres.1, ?_⟩
    exact PermWithin.trans (hstep.2.mono (le_refl lo) (by omega)) ihres.2
  case isFalse hcond =>
    exact ⟨sortedOn_restrict hinv (le_refl lo) (by omega),
      PermWithin.refl lo hi f⟩
termination_by hi - i
decreasing_by omega

/-- Go's `insertionSort` sorts `[lo, hi)` whatever the input, moving only
elements inside `[lo, hi)`. -/
theorem insertionSortF_spec {α : Type} (lt : α → α → Bool) (kf : α → Nat)
    (hk : ∀ x y, lt x y = true ↔ kf x < kf y)
    (f : Nat → α) (lo hi : Nat) :
    sortedOn kf (insertionSortF lt f lo hi) lo hi ∧
      PermWithin lo hi f (insertionSortF lt f lo hi) :=
  insOuter_spec lt kf hk f (lo+1) hi lo (by omega)
    (sortedOn_empty kf f (le_refl (lo+1)))

/-- The shell pass only rearranges elements inside `[lo, hi)` (it is run
for its effect on constant factors, not correctness). -/
theorem shellPass_perm {α : Type} (lt : α → α → Bool) (f : Nat → α)
    (i hi lo : Nat) (hlo : lo + 6 ≤ i) :
    PermWithin lo hi f (shellPass lt f i hi) := by
  unfold shellPass
  split
  case isTrue hcond =>
    refine PermWithin.trans (g := if lt (f i) (f (i-6)) = true then fswap f i (i-6) else f)
      ?_ (shellPass_perm lt _ (i+1) hi lo (by omega))
    split
    · exact permWithin_fswap f (by omega) (by omega) (by omega) (by omega)
    · exact PermWithin.refl lo hi f
  case isFalse hcond => exact PermWithin.refl lo hi f
termination_by hi - i
decreasing_by omega

/-- Rearrangement supported on an arbitrary set of indices: `g` is `f`
composed with a permutation fixing every index outside `S`. -/
def PermOn {α : Type} (S : Nat → Prop) (f g : Nat → α) : Prop :=
  ∃ π : Equiv.Perm Nat, (∀ x, g x = f (π x)) ∧ ∀ x, ¬ S x → π x = x

theorem PermOn.self {α : Type} (S : Nat → Prop) (f : Nat → α) :
    PermOn S f f :=
  ⟨Equiv.refl Nat, fun _ => rfl, fun _ _ => rfl⟩

theorem PermOn.comp {α : Type} {S : Nat → Prop} {f g h : Nat → α}
    (h1 : PermOn S f g) (h2 : PermOn S g h) : PermOn S f h := by
  obtain ⟨π1, hg, hfix1⟩ := h1
  obtain ⟨π2, hh, hfix2⟩ := h2
  refine ⟨π2.trans π1, fun x => ?_, fun x hx => ?_⟩
  · rw [hh, hg]
    rfl
  · simp [Equiv.trans_apply, hfix2 x hx, hfix1 x hx]

theorem PermOn.widen {α : Type} {S T : Nat → Prop} {f g : Nat → α}
    (h : PermOn S f g) (hst : ∀ x, S x → T x) : PermOn T f g := by
  obtain ⟨π, hg, hfix⟩ := h
  exact ⟨π, hg, fun x hx => hfix x (fun hs => hx (hst x hs))⟩

theorem permOn_fswap {α : Type} {S : Nat → Prop} {i j : Nat} (f : Nat → α)
    (hi : S i) (hj : S j) : PermOn S f (fswap f i j) := by
  refine ⟨Equiv.swap i j, fun x => ?_, fun x hx => ?_⟩
  · unfold fswap
    by_cases h1 : x = i
    · simp [h1, Equiv.swap_apply_left]
    · by_cases h2 : x = j
      · subst h2
        simp [Equiv.swap_apply_right, fun hh => h1 hh]
      · simp [h1, h2, Equiv.swap_apply_of_ne_of_ne h1 h2]
  · apply Equiv.swap_apply_of_ne_of_ne
    · exact fun hh => hx (hh ▸ hi)
    · exact fun hh => hx (hh ▸ hj)

theorem PermOn.fix {α : Type} {S : Nat → Prop} {f g : Nat → α}
    (h : PermOn S f g) (x : Nat) (hx : ¬ S x) : g x = f x := by
  obtain ⟨π, hg, hfix⟩ := h
  rw [hg, hfix x hx]

theorem PermOn.maps {α : Type} {S : Nat → Prop} {f g : Nat → α}
    (h : PermOn S f g) :
    ∀ x, S x → ∃ y, S y ∧ g x = f y := by
  obtain ⟨π, hg, hfix⟩ := h
  intro x hx
  refine ⟨π x, ?_, hg x⟩
  by_contra hc
  have hfx : π (π x) = π x := hfix (π x) hc
  have heq := π.injective hfx
  rw [heq] at hc
  exact hc hx

theorem PermOn.carries {α : Type} {S : Nat → Prop} {f g : Nat → α}
    (h : PermOn S f g) (P : α → Prop)
    (hb : ∀ x, S x → P (f x)) : ∀ x, S x → P (g x) := by
  intro x hx
  obtain ⟨y, hy1, hy2⟩ := h.maps x hx
  rw [hy2]
  exact hb y hy1

theorem PermOn.toPermWithin {α : Type} {S : Nat → Prop} {f g : Nat → α}
    {lo hi : Nat} (h : PermOn S f g) (hsub : ∀ x, S x → lo ≤ x ∧ x < hi) :
    PermWithin lo hi f g := by
  obtain ⟨π, hg, hfix⟩ := h
  refine ⟨π, hg, fun x hx => hfix x (fun hs => ?_)⟩
  have := hsub x hs
  omega

theorem PermWithin.toPermOn {α : Type} {lo hi : Nat} {f g : Nat → α}
    (h : PermWithin lo hi f g) :
    PermOn (fun x => lo ≤ x ∧ x < hi) f g := by
  obtain ⟨π, hg, hfix⟩ := h
  exact ⟨π, hg, fun x hx => hfix x (by omega)⟩

/-- Ancestor test in the implicit binary heap: `anc root pos` holds when
walking `pos` up through parents `(pos-1)/2` reaches `root`. -/
def anc (root : Nat) (pos : Nat) : Bool :=
  if pos = root then true
  else if pos ≤ root then false
  else anc root ((pos - 1) / 2)
termination_by pos
decreasing_by omega

theorem anc_self (root : Nat) : anc root root = true := by
  unfold anc
  simp

theorem anc_ge {root pos : Nat} (h : anc root pos = true) : root ≤ pos := by
  unfold anc at h
  split at h
  · omega
  · split at h
    · exact absurd h (by simp)
    · omega

theorem anc_parent {root pos : Nat} (h : anc root pos = true)
    (hne : pos ≠ root) : anc root ((pos - 1) / 2) = true ∧ root < pos := by
  unfold anc at h
  split at h
  · omega
  · split at h
    · exact absurd h (by simp)
    · exact ⟨h, by omega⟩

theorem anc_child {root p c : Nat} (h : anc root p = true)
    (hc : c = 2*p + 1 ∨ c = 2*p + 2) : anc root c = true := by
  have hrp := anc_ge h
  have hcp : (c - 1) / 2 = p := by omega
  have hcr : c ≠ root := by omega
  unfold anc
  simp only [hcr, if_false]
  have : ¬ c ≤ root := by omega
  simp only [this, if_false]
  rw [hcp]
  exact h

theorem anc_unfold (root pos : Nat) :
    anc root pos = if pos = root then true
      else if pos ≤ root then false else anc root ((pos - 1) / 2) := by
  conv_lhs => rw [anc]

theorem anc_trans {root mid pos : Nat} (h1 : anc root mid = true)
    (h2 : anc mid pos = true) : anc root pos = true := by
  by_cases hpm : pos = mid
  · exact hpm ▸ h1
  · obtain ⟨hp, hlt⟩ := anc_parent h2 hpm
    have h1' : pos ≠ root := by
      have := anc_ge h1
      omega
    have h2' : ¬ pos ≤ root := by
      have := anc_ge h1
      omega
    rw [anc_unfold, if_neg h1', if_neg h2']
    exact anc_trans h1 hp
termination_by pos
decreasing_by
  all_goals
    have := anc_ge h2
    omega

theorem anc_zero (pos : Nat) : anc 0 pos = true := by
  by_cases h : pos = 0
  · subst h
    exact anc_self 0
  · rw [anc_unfold, if_neg h, if_neg (by omega)]
    exact anc_zero ((pos - 1) / 2)
termination_by pos
decreasing_by omega

/-- In a region whose subtree pairs below `R` respect the heap order,
every subtree position is bounded by the subtree root. -/
theorem heap_le_root {α : Type} (kf : α → Nat) (f : Nat → α)
    (first n R : Nat)
    (hpairs : ∀ p c, anc R p = true → (c = 2*p+1 ∨ c = 2*p+2) → c < n →
      kf (f (first + c)) ≤ kf (f (first + p)))
    (x : Nat) (hx : anc R x = true) (hxn : x < n) :
    kf (f (first + x)) ≤ kf (f (first + R)) := by
  by_cases hxR : x = R
  · rw [hxR]
  · obtain ⟨hp, hlt⟩ := anc_parent hx hxR
    have hxform : x = 2*((x-1)/2) + 1 ∨ x = 2*((x-1)/2) + 2 := by omega
    have hstep := hpairs ((x-1)/2) x hp hxform hxn
    have hrec := heap_le_root kf f first n R hpairs ((x-1)/2) hp (by omega)
    exact hstep.trans hrec
termination_by x
decreasing_by
  have := anc_ge hp
  omega

/-- The heap positions lying in the subtree of `root`, shifted by
`first`, within a region of `n` elements. -/
def subtreeSet (root n first : Nat) : Nat → Prop :=
  fun x => first ≤ x ∧ anc root (x - first) = true ∧ x - first < n

theorem subtreeSet_not_lt {root n first x : Nat}
    (hx : x - first < root ∨ x < first) : ¬ subtreeSet root n first x := by
  intro hc
  obtain ⟨h1, h2, h3⟩ := hc
  have := anc_ge h2
  omega

/-- The child selected by `pickChild` dominates both children of `root`
that lie inside the region. -/
theorem pickChild_dom {α : Type} (lt : α → α → Bool) (kf : α → Nat)
    (hk : ∀ x y, lt x y = true ↔ kf x < kf y)
    (f : Nat → α) (first n root : Nat) :
    ∀ c, (c = 2*root+1 ∨ c = 2*root+2) → c < n →
      kf (f (first + c)) ≤ kf (f (first + pickChild lt f first n (2*root+1))) := by
  intro c hc hcn
  unfold pickChild
  by_cases hcond : 2*root+1 + 1 < n ∧
      lt (f (first + (2*root+1))) (f (first + (2*root+1) + 1)) = true
  · rw [if_pos hcond]
    rcases hc with hc | hc
    · subst hc
      have hidx : first + (2*root+1) + 1 = first + (2*root+1+1) := by omega
      have hlt := le_of_lt ((hk _ _).mp hcond.2)
      rw [hidx] at hlt
      exact hlt
    · subst hc
      have hidx2 : first + (2*root+2) = first + (2*root+1+1) := by omega
      rw [hidx2]
  · rw [if_neg hcond]
    rcases hc with hc | hc
    · subst hc
      exact le_refl _
    · subst hc
      have h1 : 2*root+1 + 1 < n := by omega
      have h2 : lt (f (first + (2*root+1))) (f (first + (2*root+1) + 1)) = false := by
        rcases Bool.eq_false_or_eq_true
          (lt (f (first + (2*root+1))) (f (first + (2*root+1) + 1))) with hb | hb
        · exact absurd ⟨h1, hb⟩ hcond
        · exact hb
      have h3 : ¬ kf (f (first + (2*root+1))) <
          kf (f (first + (2*root+1) + 1)) := by
        intro hcc
        rw [(hk _ _).mpr hcc] at h2
        simp at h2
      have hidx : first + (2*root+2) = first + (2*root+1) + 1 := by omega
      rw [hidx]
      omega

theorem subtreeSet_mem (root n first y : Nat) (h1 : anc root y = true)
    (h2 : y < n) : subtreeSet root n first (first + y) := by
  have h3 : first + y - first = y := by omega
  exact ⟨by omega, by rw [h3]; exact h1, by rw [h3]; exact h2⟩

/-- `siftDown` restores the heap pair order at and below `root`, given it
already holds strictly below `root`, and rearranges only the subtree of
`root`. -/
theorem siftDownF_spec {α : Type} (lt : α → α → Bool) (kf : α → Nat)
    (hk : ∀ x y, lt x y = true ↔ kf x < kf y)
    (f : Nat → α) (root n first : Nat)
    (hpre : ∀ p c, root < p → (c = 2*p+1 ∨ c = 2*p+2) → c < n →
      kf (f (first + c)) ≤ kf (f (first + p))) :
    (∀ p c, root ≤ p → (c = 2*p+1 ∨ c = 2*p+2) → c < n →
      kf (siftDownF lt f root n first (first + c)) ≤
        kf (siftDownF lt f root n first (first + p))) ∧
    PermOn (subtreeSet root n first) f (siftDownF lt f root n first) := by
  unfold siftDownF
  split
  case isTrue hroot =>
    have hdom := pickChild_dom lt kf hk f first n root
    set c1 := pickChild lt f first n (2*root+1) with hc1def
    have hc1a : c1 = 2*root+1 ∨ c1 = 2*root+2 := by
      rw [hc1def]
      unfold pickChild
      split <;> omega
    have hc1n : c1 < n := by
      rw [hc1def]
      exact pickChild_lt lt f first n (2*root+1) hroot
    have hrc1 : root < c1 := by omega
    have hancc1 : anc root c1 = true := anc_child (anc_self root) hc1a
    split
    case isTrue hswap =>
      have hkswap : kf (f (first+root)) < kf (f (first+c1)) := (hk _ _).mp hswap
      have hf1root : fswap f (first+root) (first+c1) (first+root) = f (first+c1) :=
        fswap_fst f _ _
      have hf1c1 : fswap f (first+root) (first+c1) (first+c1) = f (first+root) :=
        fswap_snd f _ _
      have hf1other : ∀ x, x ≠ first+root → x ≠ first+c1 →
          fswap f (first+root) (first+c1) x = f x :=
        fun x h1 h2 => fswap_other f h1 h2
      have hpre' : ∀ p c, c1 < p → (c = 2*p+1 ∨ c = 2*p+2) → c < n →
          kf (fswap f (first+root) (first+c1) (first + c)) ≤
            kf (fswap f (first+root) (first+c1) (first + p)) := by
        intro p c hp hc hcn
        rw [hf1other (first+c) (by omega) (by omega),
          hf1other (first+p) (by omega) (by omega)]
        exact hpre p c (by omega) hc hcn
      obtain ⟨ihpairs, ihperm⟩ :=
        siftDownF_spec lt kf hk (fswap f (first+root) (first+c1)) c1 n first hpre'
      constructor
      · intro p c hp hc hcn
        by_cases hpc1 : c1 ≤ p
        · exact ihpairs p c hpc1 hc hcn
        · have hgroot :
              siftDownF lt (fswap f (first+root) (first+c1)) c1 n first (first+root)
                = f (first+c1) := by
            rw [ihperm.fix (first+root) (subtreeSet_not_lt (by omega)), hf1root]
          by_cases hpr : p = root
          · rw [hpr] at hc ⊢
            by_cases hcc1 : c = c1
            · rw [hcc1]
              have hboundf1 : ∀ x, subtreeSet c1 n first x →
                  kf (fswap f (first+root) (first+c1) x) ≤ kf (f (first+c1)) := by
                intro x hx
                obtain ⟨hx1, hx2, hx3⟩ := hx
                by_cases hxc1 : x - first = c1
                · have hxx : x = first + c1 := by omega
                  rw [hxx, hf1c1]
                  exact le_of_lt hkswap
                · have hxr : x ≠ first + root := by
                    have := anc_ge hx2
                    omega
                  have hxc : x ≠ first + c1 := by omega
                  rw [hf1other x hxr hxc]
                  have hxeq : x = first + (x - first) := by omega
                  rw [hxeq]
                  exact heap_le_root kf f first n c1
                    (fun p' c' hp' hc' hcn' =>
                      hpre p' c' (by have := anc_ge hp'; omega) hc' hcn')
                    (x - first) hx2 hx3
              have hboundg := ihperm.carries (fun v => kf v ≤ kf (f (first+c1)))
                hboundf1
              have hc1in : subtreeSet c1 n first (first+c1) :=
                subtreeSet_mem c1 n first c1 (anc_self c1) hc1n
              rw [hgroot]
              exact hboundg (first+c1) hc1in
            · have hcs : ¬ subtreeSet c1 n first (first+c) := by
                intro hcon
                obtain ⟨h1, h2, h3⟩ := hcon
                have h4 : first + c - first = c := by omega
                rw [h4] at h2 h3
                obtain ⟨h5, h6⟩ := anc_parent h2 (by omega)
                have h7 : (c - 1)/2 = root := by omega
                rw [h7] at h5
                have := anc_ge h5
                omega
              have hgc :
                  siftDownF lt (fswap f (first+root) (first+c1)) c1 n first (first+c)
                    = f (first+c) := by
                rw [ihperm.fix _ hcs,
                  hf1other (first+c) (by omega) (by omega)]
              rw [hgroot, hgc]
              exact hdom c hc hcn
          · have hp1 : root < p := by omega
            have hcgt : c1 < c := by omega
            have hcs : ¬ subtreeSet c1 n first (first+c) := by
              intro hcon
              obtain ⟨h1, h2, h3⟩ := hcon
              have h4 : first + c - first = c := by omega
              rw [h4] at h2 h3
              obtain ⟨h5, h6⟩ := anc_parent h2 (by omega)
              have h7 : (c - 1)/2 = p := by omega
              rw [h7] at h5
              have := anc_ge h5
              omega
            have hps : ¬ subtreeSet c1 n first (first+p) :=
              subtreeSet_not_lt (by omega)
            rw [ihperm.fix _ hcs, ihperm.fix _ hps,
              hf1other (first+c) (by omega) (by omega),
              hf1other (first+p) (by omega) (by omega)]
            exact hpre p c hp1 hc hcn
      · refine PermOn.comp (permOn_fswap f ?_ ?_) (ihperm.widen ?_)
        · exact subtreeSet_mem root n first root (anc_self root) (by omega)
        · exact subtreeSet_mem root n first c1 hancc1 hc1n
        · intro x hx
          obtain ⟨h1, h2, h3⟩ := hx
          exact ⟨h1, anc_trans hancc1 h2, h3⟩
    case isFalse hswap =>
      have hkswap : kf (f (first+c1)) ≤ kf (f (first+root)) := by
        by_contra hc
        have := (hk (f (first+root)) (f (first+c1))).mpr (by omega)
        exact hswap this
      refine ⟨fun p c hp hc hcn => ?_, PermOn.self _ f⟩
      by_cases hpr : root < p
      · exact hpre p c hpr hc hcn
      · have hpe : p = root := by omega
        subst hpe
        exact (hdom c hc hcn).trans hkswap
  case isFalse hroot =>
    refine ⟨fun p c hp hc hcn => ?_, PermOn.self _ f⟩
    by_cases hpr : root < p
    · exact hpre p c hpr hc hcn
    · have hpe : p = root := by omega
      omega
termination_by n - root
decreasing_by omega

theorem permWithin_of_eq {α : Type} {lo hi : Nat} {f g : Nat → α}
    (h : ∀ x, g x = f x) : PermWithin lo hi f g :=
  ⟨Equiv.refl Nat, fun x => h x, fun _ _ => rfl⟩

theorem fswap_id {α : Type} (f : Nat → α) (i x : Nat) : fswap f i i x = f x := by
  unfold fswap
  by_cases h : x = i
  · simp [h]
  · simp [h]

theorem siftDownF_zero {α : Type} (lt : α → α → Bool) (f : Nat → α)
    (root first : Nat) : siftDownF lt f root 0 first = f := by
  unfold siftDownF
  simp

/-- The build phase establishes the heap pair order on the whole region,
rearranging only `[first, first+n)`. -/
theorem heapBuildF_spec {α : Type} (lt : α → α → Bool) (kf : α → Nat)
    (hk : ∀ x y, lt x y = true ↔ kf x < kf y)
    (f : Nat → α) (i n first : Nat)
    (hpre : ∀ p c, i < p → (c = 2*p+1 ∨ c = 2*p+2) → c < n →
      kf (f (first + c)) ≤ kf (f (first + p))) :
    (∀ p c, (c = 2*p+1 ∨ c = 2*p+2) → c < n →
      kf (heapBuildF lt f i n first (first + c)) ≤
        kf (heapBuildF lt f i n first (first + p))) ∧
    PermWithin first (first + n) f (heapBuildF lt f i n first) := by
  induction i generalizing f with
  | zero =>
    obtain ⟨hpairs, hperm⟩ := siftDownF_spec lt kf hk f 0 n first
      (fun p c hp hc hcn => hpre p c hp hc hcn)
    refine ⟨fun p c hc hcn => ?_, ?_⟩
    · exact hpairs p c (Nat.zero_le p) hc hcn
    · exact hperm.toPermWithin (fun x hx => by
        obtain ⟨h1, h2, h3⟩ := hx
        omega)
  | succ i' ih =>
    obtain ⟨hpairs, hperm⟩ := siftDownF_spec lt kf hk f (Nat.succ i') n first
      (fun p c hp hc hcn => hpre p c (by omega) hc hcn)
    obtain ⟨ihpairs, ihperm⟩ := ih (siftDownF lt f (Nat.succ i') n first)
      (fun p c hp hc hcn => hpairs p c (by omega) hc hcn)
    refine ⟨fun p c hc hcn => ihpairs p c hc hcn, ?_⟩
    exact PermWithin.trans
      (hperm.toPermWithin (fun x hx => by
        obtain ⟨h1, h2, h3⟩ := hx
        omega)) ihperm

/-- The pop phase: with a heap on `[0, i+1)`, a sorted suffix `[i+1, n)`
dominating the heap region, the loop leaves `[0, n)` fully sorted. -/
theorem heapPopF_spec {α : Type} (lt : α → α → Bool) (kf : α → Nat)
    (hk : ∀ x y, lt x y = true ↔ kf x < kf y)
    (f : Nat → α) (i first n : Nat) (hin : i < n)
    (hheap : ∀ p c, (c = 2*p+1 ∨ c = 2*p+2) → c < i+1 →
      kf (f (first + c)) ≤ kf (f (first + p)))
    (hsuffix : ∀ x y, i+1 ≤ x → x ≤ y → y < n →
      kf (f (first + x)) ≤ kf (f (first + y)))
    (hcross : ∀ x y, x < i+1 → i+1 ≤ y → y < n →
      kf (f (first + x)) ≤ kf (f (first + y))) :
    (∀ x y, x ≤ y → y < n →
      kf (heapPopF lt f i first (first + x)) ≤
        kf (heapPopF lt f i first (first + y))) ∧
    PermWithin first (first + n) f (heapPopF lt f i first) := by
  induction i generalizing f with
  | zero =>
    have hid : ∀ x, heapPopF lt f 0 first x = f x := by
      intro x
      simp only [heapPopF, siftDownF_zero]
      exact fswap_id f first x
    refine ⟨fun x y hxy hy => ?_, permWithin_of_eq hid⟩
    rw [hid, hid]
    by_cases hx0 : x = 0
    · subst hx0
      by_cases hy0 : y = 0
      · subst hy0
        exact le_refl _
      · exact hcross 0 y (by omega) (by omega) hy
    · exact hsuffix x y (by omega) hxy hy
  | succ i' ih =>
    have hmax : ∀ x, x < i'+2 → kf (f (first + x)) ≤ kf (f (first + 0)) :=
      fun x hx => heap_le_root kf f first (i'+2) 0
        (fun p c hp hc hcn => hheap p c hc hcn) x (anc_zero x) hx
    have hf1a : fswap f first (first + (i'+1)) first = f (first + (i'+1)) := by
      have := fswap_fst f first (first + (i'+1))
      exact this
    have hf1b : fswap f first (first + (i'+1)) (first + (i'+1)) = f first :=
      fswap_snd f first (first + (i'+1))
    have hf1o : ∀ x, x ≠ first → x ≠ first + (i'+1) →
        fswap f first (first + (i'+1)) x = f x :=
      fun x h1 h2 => fswap_other f h1 h2
    obtain ⟨hspairs, hsperm⟩ := siftDownF_spec lt kf hk
      (fswap f first (first + (i'+1))) 0 (i'+1) first
      (by
        intro p c hp hc hcn
        rw [hf1o (first + c) (by omega) (by omega),
          hf1o (first + p) (by omega) (by omega)]
        exact hheap p c hc (by omega))
    set f2 := siftDownF lt (fswap f first (first + (i'+1))) 0 (i'+1) first
      with hf2def
    have hf2out : ∀ x, i'+1 ≤ x → f2 (first + x) =
        fswap f first (first + (i'+1)) (first + x) := by
      intro x hx
      exact hsperm.fix (first + x) (fun hcon => by
        obtain ⟨h1, h2, h3⟩ := hcon
        omega)
    have hf2suffixval : ∀ x, i'+1 ≤ x → x < n →
        (x = i'+1 → f2 (first + x) = f first) ∧
        (i'+1 < x → f2 (first + x) = f (first + x)) := by
      intro x hx hxn
      constructor
      · intro hxe
        rw [hf2out x hx, hxe, hf1b]
      · intro hxgt
        rw [hf2out x hx, hf1o (first + x) (by omega) (by omega)]
    have hf2bound : ∀ x, x < i'+1 → kf (f2 (first + x)) ≤ kf (f first) := by
      intro x hx
      have hb := hsperm.carries (fun v => kf v ≤ kf (f first))
        (by
          intro z hz
          obtain ⟨h1, h2, h3⟩ := hz
          by_cases hz0 : z - first = 0
          · have hzz : z = first := by omega
            rw [hzz, hf1a]
            have := hmax (i'+1) (by omega)
            simpa using this
          · have hzz : z = first + (z - first) := by omega
            rw [hzz, hf1o (first + (z - first)) (by omega) (by omega)]
            have := hmax (z - first) (by omega)
            simpa using this)
      have hxin : subtreeSet 0 (i'+1) first (first + x) :=
        subtreeSet_mem 0 (i'+1) first x (anc_zero x) hx
      exact hb (first + x) hxin
    have hrootle : ∀ y, i'+1 ≤ y → y < n → kf (f first) ≤ kf (f2 (first + y)) := by
      intro y hy hyn
      by_cases hye : y = i'+1
      · rw [((hf2suffixval y hy hyn).1) hye]
      · rw [((hf2suffixval y hy hyn).2) (by omega)]
        have := hcross 0 y (by omega) (by omega) hyn
        simpa using this
    obtain ⟨ihpairs, ihperm⟩ := ih f2 (by omega)
      (fun p c hc hcn => hspairs p c (by omega) hc hcn)
      (by
        intro x y hx hxy hyn
        by_cases hxe : x = i'+1
        · rw [((hf2suffixval x hx (by omega)).1) hxe]
          exact hrootle y (by omega) hyn
        · rw [((hf2suffixval x hx (by omega)).2) (by omega),
            ((hf2suffixval y (by omega) hyn).2) (by omega)]
          exact hsuffix x y (by omega) hxy hyn)
      (by
        intro x y hx hy hyn
        exact (hf2bound x hx).trans (hrootle y hy hyn))
    have hunfold : heapPopF lt f (i'+1) first = heapPopF lt f2 i' first := by
      simp only [heapPopF, Nat.succ_eq_add_one]
    rw [hunfold]
    refine ⟨ihpairs, ?_⟩
    have hstep1 : PermWithin first (first + n) f
        (fswap f first (first + (i'+1))) :=
      permWithin_fswap f (le_refl first) (by omega) (by omega) (by omega)
    have hstep2 : PermWithin first (first + n)
        (fswap f first (first + (i'+1))) f2 :=
      hsperm.toPermWithin (fun x hx => by
        obtain ⟨h1, h2, h3⟩ := hx
        omega)
    exact (hstep1.trans hstep2).trans ihperm

/-- Go's `heapSort` sorts `[lo, hi)`, rearranging only `[lo, hi)`. -/
theorem heapSortF_spec {α : Type} (lt : α → α → Bool) (kf : α → Nat)
    (hk : ∀ x y, lt x y = true ↔ kf x < kf y)
    (f : Nat → α) (lo hi : Nat) :
    sortedOn kf (heapSortF lt f lo hi) lo hi ∧
      PermWithin lo hi f (heapSortF lt f lo hi) := by
  unfold heapSortF
  by_cases hr : hi - lo = 0
  · rw [hr]
    obtain ⟨hbpairs, hbperm⟩ := heapBuildF_spec lt kf hk f ((0 - 1) / 2) 0 lo
      (fun p c hp hc hcn => by omega)
    have hbeq : ∀ x, heapBuildF lt f ((0 - 1) / 2) 0 lo x = f x := by
      intro x
      by_cases hx : lo ≤ x ∧ x < lo + 0
      · omega
      · exact hbperm.outside x (by omega)
    have hpid : ∀ x,
        heapPopF lt (heapBuildF lt f ((0-1)/2) 0 lo) (0 - 1) lo x = f x := by
      intro x
      have h0 : (0 : Nat) - 1 = 0 := rfl
      rw [h0]
      simp only [heapPopF, siftDownF_zero]
      rw [fswap_id]
      exact hbeq x
    refine ⟨?_, permWithin_of_eq hpid⟩
    intro p q hp hpq hq
    omega
  · obtain ⟨hbpairs, hbperm⟩ := heapBuildF_spec lt kf hk f
      ((hi - lo - 1) / 2) (hi - lo) lo
      (fun p c hp hc hcn => by omega)
    obtain ⟨hppairs, hpperm⟩ := heapPopF_spec lt kf hk
      (heapBuildF lt f ((hi - lo - 1) / 2) (hi - lo) lo) (hi - lo - 1) lo
      (hi - lo) (by omega)
      (fun p c hc hcn => hbpairs p c hc (by omega))
      (fun x y hx hxy hyn => by omega)
      (fun x y hx hy hyn => by omega)
    constructor
    · intro p q hp hpq hq
      have hpe : p = lo + (p - lo) := by omega
      have hqe : q = lo + (q - lo) := by omega
      rw [hpe, hqe]
      exact hppairs (p - lo) (q - lo) (by omega) (by omega)
    · have hlh : lo + (hi - lo) = hi := by omega
      rw [hlh] at hbperm hpperm
      exact PermWithin.trans hbperm hpperm

theorem advA_ge {α : Type} (lt : α → α → Bool) (f : Nat → α)
    (pivot a c : Nat) : a ≤ advA lt f pivot a c := by
  unfold advA
  split
  · have := advA_ge lt f pivot (a+1) c
    omega
  · omega
termination_by c - a
decreasing_by omega

theorem advA_le {α : Type} (lt : α → α → Bool) (f : Nat → α)
    (pivot a c : Nat) (h : a ≤ c) : advA lt f pivot a c ≤ c := by
  unfold advA
  split
  · next h' => exact advA_le lt f pivot (a+1) c (by omega)
  · omega
termination_by c - a
decreasing_by omega

theorem advA_scan {α : Type} (lt : α → α → Bool) (f : Nat → α)
    (pivot a c : Nat) :
    ∀ x, a ≤ x → x < advA lt f pivot a c → lt (f x) (f pivot) = true := by
  unfold advA
  split
  case isTrue h =>
    intro x hx1 hx2
    by_cases hxa : x = a
    · exact hxa ▸ h.2
    · exact advA_scan lt f pivot (a+1) c x (by omega) hx2
  case isFalse h =>
    intro x hx1 hx2
    omega
termination_by c - a
decreasing_by omega

theorem advB_scan {α : Type} (lt : α → α → Bool) (f : Nat → α)
    (pivot b c : Nat) :
    ∀ x, b ≤ x → x < advB lt f pivot b c → lt (f pivot) (f x) = false := by
  unfold advB
  split
  case isTrue h =>
    intro x hx1 hx2
    by_cases hxb : x = b
    · exact hxb ▸ h.2
    · exact advB_scan lt f pivot (b+1) c x (by omega) hx2
  case isFalse h =>
    intro x hx1 hx2
    omega
termination_by c - b
decreasing_by omega

theorem advB_stop {α : Type} (lt : α → α → Bool) (f : Nat → α)
    (pivot b c : Nat) (h : advB lt f pivot b c < c) :
    lt (f pivot) (f (advB lt f pivot b c)) = true := by
  by_cases hcond : b < c ∧ lt (f pivot) (f b) = false
  · rw [advB, dif_pos hcond] at h ⊢
    exact advB_stop lt f pivot (b+1) c h
  · rw [advB, dif_neg hcond] at h ⊢
    rcases Bool.eq_false_or_eq_true (lt (f pivot) (f b)) with hb | hb
    · exact hb
    · exact absurd ⟨h, hb⟩ hcond
termination_by c - b
decreasing_by omega

theorem retC_scan {α : Type} (lt : α → α → Bool) (f : Nat → α)
    (pivot b c : Nat) :
    ∀ x, retC lt f pivot b c ≤ x → x < c → lt (f pivot) (f x) = true := by
  unfold retC
  split
  case isTrue h =>
    intro x hx1 hx2
    by_cases hxc : x = c - 1
    · exact hxc ▸ h.2
    · exact retC_scan lt f pivot b (c-1) x hx1 (by omega)
  case isFalse h =>
    intro x hx1 hx2
    omega
termination_by c
decreasing_by omega

theorem retC_stop {α : Type} (lt : α → α → Bool) (f : Nat → α)
    (pivot b c : Nat) (h : b < retC lt f pivot b c) :
    lt (f pivot) (f (retC lt f pivot b c - 1)) = false := by
  by_cases hcond : b < c ∧ lt (f pivot) (f (c-1)) = true
  · rw [retC, dif_pos hcond] at h ⊢
    exact retC_stop lt f pivot b (c-1) h
  · rw [retC, dif_neg hcond] at h ⊢
    rcases Bool.eq_false_or_eq_true (lt (f pivot) (f (c-1))) with hb | hb
    · exact absurd ⟨h, hb⟩ hcond
    · exact hb
termination_by c
decreasing_by omega

theorem protBDown_scan {α : Type} (lt : α → α → Bool) (f : Nat → α)
    (pivot a b : Nat) :
    ∀ x, protBDown lt f pivot a b ≤ x → x < b → lt (f x) (f pivot) = false := by
  unfold protBDown
  split
  case isTrue h =>
    intro x hx1 hx2
    by_cases hxb : x = b - 1
    · exact hxb ▸ h.2
    · exact protBDown_scan lt f pivot a (b-1) x hx1 (by omega)
  case isFalse h =>
    intro x hx1 hx2
    omega
termination_by b
decreasing_by omega

theorem protBDown_stop {α : Type} (lt : α → α → Bool) (f : Nat → α)
    (pivot a b : Nat) (h : a < protBDown lt f pivot a b) :
    lt (f (protBDown lt f pivot a b - 1)) (f pivot) = true := by
  by_cases hcond : a < b ∧ lt (f (b-1)) (f pivot) = false
  · rw [protBDown, dif_pos hcond] at h ⊢
    exact protBDown_stop lt f pivot a (b-1) h
  · rw [protBDown, dif_neg hcond] at h ⊢
    rcases Bool.eq_false_or_eq_true (lt (f (b-1)) (f pivot)) with hb | hb
    · exact hb
    · exact absurd ⟨h, hb⟩ hcond
termination_by b
decreasing_by omega

theorem protAUp_scan {α : Type} (lt : α → α → Bool) (f : Nat → α)
    (pivot a b : Nat) :
    ∀ x, a ≤ x → x < protAUp lt f pivot a b → lt (f x) (f pivot) = true := by
  unfold protAUp
  split
  case isTrue h =>
    intro x hx1 hx2
    by_cases hxa : x = a
    · exact hxa ▸ h.2
    · exact protAUp_scan lt f pivot (a+1) b x (by omega) hx2
  case isFalse h =>
    intro x hx1 hx2
    omega
termination_by b - a
decreasing_by omega

theorem protAUp_stop {α : Type} (lt : α → α → Bool) (f : Nat → α)
    (pivot a b : Nat) (h : protAUp lt f pivot a b < b) :
    lt (f (protAUp lt f pivot a b)) (f pivot) = false := by
  by_cases hcond : a < b ∧ lt (f a) (f pivot) = true
  · rw [protAUp, dif_pos hcond] at h ⊢
    exact protAUp_stop lt f pivot (a+1) b h
  · rw [protAUp, dif_neg hcond] at h ⊢
    rcases Bool.eq_false_or_eq_true (lt (f a) (f pivot)) with hb | hb
    · exact absurd ⟨h, hb⟩ hcond
    · exact hb
termination_by b - a
decreasing_by omega

/-- The partition loop: starting with `[lo+1, b)` at most the pivot and
`[c, hi-1)` strictly above it, the scans meet at `b' = c'` with
`[lo+1, b')` at most the pivot and `[c', hi-1)` strictly above it; only
`[b, c)` is rearranged. -/
theorem partLoop_spec {α : Type} (lt : α → α → Bool) (kf : α → Nat)
    (hk : ∀ x y, lt x y = true ↔ kf x < kf y)
    (f : Nat → α) (lo hi b c : Nat)
    (hlb : lo < b) (hbc : b ≤ c) (hch : c ≤ hi - 1)
    (hmid : ∀ x, lo + 1 ≤ x → x < b → kf (f x) ≤ kf (f lo))
    (hhigh : ∀ x, c ≤ x → x < hi - 1 → kf (f lo) < kf (f x)) :
    (partLoop lt f lo b c).2.1 = (partLoop lt f lo b c).2.2 ∧
    b ≤ (partLoop lt f lo b c).2.1 ∧ (partLoop lt f lo b c).2.2 ≤ c ∧
    PermWithin b c f (partLoop lt f lo b c).1 ∧
    (∀ x, lo + 1 ≤ x → x < (partLoop lt f lo b c).2.1 →
      kf ((partLoop lt f lo b c).1 x) ≤ kf ((partLoop lt f lo b c).1 lo)) ∧
    (∀ x, (partLoop lt f lo b c).2.2 ≤ x → x < hi - 1 →
      kf ((partLoop lt f lo b c).1 lo) < kf ((partLoop lt f lo b c).1 x)) := by
  have hb1ge := advB_ge lt f lo b c
  have hb1le := advB_le lt f lo b c hbc
  have hc1le := retC_le lt f lo (advB lt f lo b c) c
  have hc1ge := retC_ge lt f lo (advB lt f lo b c) c hb1le
  by_cases hcond : advB lt f lo b c < retC lt f lo (advB lt f lo b c) c
  case pos =>
    rw [partLoop, dif_pos hcond]
    set b1 := advB lt f lo b c with hb1def
    set c1 := retC lt f lo b1 c with hc1def
    have hstopb : lt (f lo) (f b1) = true := advB_stop lt f lo b c (by omega)
    have hstopc : lt (f lo) (f (c1 - 1)) = false := retC_stop lt f lo b1 c (by omega)
    have hkb : kf (f lo) < kf (f b1) := (hk _ _).mp hstopb
    have hkc : kf (f (c1-1)) ≤ kf (f lo) := by
      by_contra hcc
      rw [(hk _ _).mpr (by omega)] at hstopc
      simp at hstopc
    have hne : b1 ≠ c1 - 1 := by
      intro he
      rw [he] at hkb
      omega
    have hb1c1 : b1 < c1 - 1 := by omega
    have hg1 : fswap f b1 (c1-1) b1 = f (c1-1) := fswap_fst f _ _
    have hg2 : fswap f b1 (c1-1) (c1-1) = f b1 := fswap_snd f _ _
    have hgo : ∀ x, x ≠ b1 → x ≠ c1-1 → fswap f b1 (c1-1) x = f x :=
      fun x h1 h2 => fswap_other f h1 h2
    have hmid' : ∀ x, lo + 1 ≤ x → x < b1 + 1 →
        kf (fswap f b1 (c1-1) x) ≤ kf (fswap f b1 (c1-1) lo) := by
      intro x hx1 hx2
      rw [hgo lo (by omega) (by omega)]
      by_cases hxb : x = b1
      · rw [hxb, hg1]
        exact hkc
      · rw [hgo x hxb (by omega)]
        by_cases hxlt : x < b
        · exact hmid x hx1 hxlt
        · have hscan := advB_scan lt f lo b c x (by omega) (by omega)
          by_contra hcc
          rw [(hk _ _).mpr (by omega)] at hscan
          simp at hscan
    have hhigh' : ∀ x, c1 - 1 ≤ x → x < hi - 1 →
        kf (fswap f b1 (c1-1) lo) < kf (fswap f b1 (c1-1) x) := by
      intro x hx1 hx2
      rw [hgo lo (by omega) (by omega)]
      by_cases hxc : x = c1-1
      · rw [hxc, hg2]
        exact hkb
      · rw [hgo x (by omega) hxc]
        by_cases hxge : c ≤ x
        · exact hhigh x hxge hx2
        · have hscan := retC_scan lt f lo b1 c x (by omega) (by omega)
          exact (hk _ _).mp hscan
    obtain ⟨ih1, ih2, ih3, ih4, ih5, ih6⟩ := partLoop_spec lt kf hk
      (fswap f b1 (c1-1)) lo hi (b1+1) (c1-1) (by omega) (by omega) (by omega)
      hmid' hhigh'
    refine ⟨ih1, by omega, by omega, ?_, ih5, ih6⟩
    refine PermWithin.trans ?_ (ih4.mono (by omega) (by omega))
    exact permWithin_fswap f (by omega) (by omega) (by omega) (by omega)
  case neg =>
    rw [partLoop, dif_neg hcond]
    dsimp only
    refine ⟨by omega, hb1ge, hc1le, PermWithin.refl b c f, ?_, ?_⟩
    · intro x hx1 hx2
      by_cases hxlt : x < b
      · exact hmid x hx1 hxlt
      · have hscan := advB_scan lt f lo b c x (by omega) hx2
        by_contra hcc
        rw [(hk _ _).mpr (by omega)] at hscan
        simp at hscan
    · intro x hx1 hx2
      by_cases hxge : c ≤ x
      · exact hhigh x hxge hx2
      · have hscan := retC_scan lt f lo (advB lt f lo b c) c x hx1 (by omega)
        exact (hk _ _).mp hscan
termination_by c - b
decreasing_by omega

/-- The duplicate-protection loop: with `[lo+1, b)` at most the pivot and
`[b, c)` equal to it, it returns `b' ≤ b` with `[lo+1, b')` at most the
pivot and `[b', c)` equal to it, rearranging only `[lo+1, b)`. -/
theorem protLoop_spec {α : Type} (lt : α → α → Bool) (kf : α → Nat)
    (hk : ∀ x y, lt x y = true ↔ kf x < kf y)
    (f : Nat → α) (lo c a b : Nat)
    (hla : lo < a) (hlb : lo < b)
    (hmid : ∀ x, lo + 1 ≤ x → x < b → kf (f x) ≤ kf (f lo))
    (hband : ∀ x, b ≤ x → x < c → kf (f x) = kf (f lo)) :
    lo < (protLoop lt f lo a b).2 ∧ (protLoop lt f lo a b).2 ≤ b ∧
    PermWithin (lo+1) b f (protLoop lt f lo a b).1 ∧
    (∀ x, lo + 1 ≤ x → x < (protLoop lt f lo a b).2 →
      kf ((protLoop lt f lo a b).1 x) ≤ kf ((protLoop lt f lo a b).1 lo)) ∧
    (∀ x, (protLoop lt f lo a b).2 ≤ x → x < c →
      kf ((protLoop lt f lo a b).1 x) = kf ((protLoop lt f lo a b).1 lo)) := by
  have hb1le := protBDown_le lt f lo a b
  have ha1ge := protAUp_ge lt f lo a (protBDown lt f lo a b)
  have hb1lo : lo < protBDown lt f lo a b := by
    by_cases hab : a ≤ b
    · have := protBDown_ge lt f lo a b hab
      omega
    · rw [protBDown, dif_neg (by omega)]
      exact hlb
  have hscanb := protBDown_scan lt f lo a b
  by_cases hcond : protAUp lt f lo a (protBDown lt f lo a b) <
      protBDown lt f lo a b
  case pos =>
    rw [protLoop, dif_pos hcond]
    set b1 := protBDown lt f lo a b with hb1def
    set a1 := protAUp lt f lo a b1 with ha1def
    have hstopa : lt (f a1) (f lo) = false := protAUp_stop lt f lo a b1 hcond
    have hstopb : lt (f (b1-1)) (f lo) = true :=
      protBDown_stop lt f lo a b (by omega)
    have hkb : kf (f (b1-1)) < kf (f lo) := (hk _ _).mp hstopb
    have hkaeq : kf (f a1) = kf (f lo) := by
      have hle : kf (f a1) ≤ kf (f lo) := hmid a1 (by omega) (by omega)
      have hge : ¬ kf (f a1) < kf (f lo) := by
        intro hcc
        rw [(hk _ _).mpr hcc] at hstopa
        simp at hstopa
      omega
    have hne : a1 < b1 - 1 := by
      by_cases he : a1 = b1 - 1
      · rw [he] at hkaeq
        omega
      · omega
    have hg1 : fswap f a1 (b1-1) a1 = f (b1-1) := fswap_fst f _ _
    have hg2 : fswap f a1 (b1-1) (b1-1) = f a1 := fswap_snd f _ _
    have hgo : ∀ x, x ≠ a1 → x ≠ b1-1 → fswap f a1 (b1-1) x = f x :=
      fun x h1 h2 => fswap_other f h1 h2
    have hmid' : ∀ x, lo + 1 ≤ x → x < b1 - 1 →
        kf (fswap f a1 (b1-1) x) ≤ kf (fswap f a1 (b1-1) lo) := by
      intro x hx1 hx2
      rw [hgo lo (by omega) (by omega)]
      by_cases hxa : x = a1
      · rw [hxa, hg1]
        exact le_of_lt hkb
      · rw [hgo x hxa (by omega)]
        exact hmid x hx1 (by omega)
    have hband' : ∀ x, b1 - 1 ≤ x → x < c →
        kf (fswap f a1 (b1-1) x) = kf (fswap f a1 (b1-1) lo) := by
      intro x hx1 hx2
      rw [hgo lo (by omega) (by omega)]
      by_cases hxb : x = b1-1
      · rw [hxb, hg2]
        exact hkaeq
      · rw [hgo x (by omega) hxb]
        by_cases hxlt : x < b
        · have hsc := hscanb x (by omega) hxlt
          have hle := hmid x (by omega) hxlt
          have hge : ¬ kf (f x) < kf (f lo) := by
            intro hcc
            rw [(hk _ _).mpr hcc] at hsc
            simp at hsc
          omega
        · exact hband x (by omega) hx2
    obtain ⟨ih1, ih2, ih3, ih4, ih5⟩ := protLoop_spec lt kf hk
      (fswap f a1 (b1-1)) lo c (a1+1) (b1-1) (by omega) (by omega) hmid' hband'
    refine ⟨ih1, by omega, ?_, ih4, ih5⟩
    refine PermWithin.trans ?_ (ih3.mono (by omega) (by omega))
    exact permWithin_fswap f (by omega) (by omega) (by omega) (by omega)
  case neg =>
    rw [protLoop, dif_neg hcond]
    dsimp only
    refine ⟨hb1lo, hb1le, PermWithin.refl (lo+1) b f, ?_, ?_⟩
    · intro x hx1 hx2
      exact hmid x hx1 (by omega)
    · intro x hx1 hx2
      by_cases hxlt : x < b
      · have hsc := hscanb x hx1 hxlt
        have hle := hmid x (by omega) hxlt
        have hge : ¬ kf (f x) < kf (f lo) := by
          intro hcc
          rw [(hk _ _).mpr hcc] at hsc
          simp at hsc
        omega
      · exact hband x (by omega) hx2
termination_by b - a
decreasing_by omega

theorem permOn_ite {α : Type} {S : Nat → Prop} {f g1 g2 : Nat → α}
    (c : Prop) [Decidable c] (h1 : PermOn S f g1) (h2 : PermOn S f g2) :
    PermOn S f (if c then g1 else g2) := by
  split
  · exact h1
  · exact h2

theorem med3Step_perm {α : Type} (lt : α → α → Bool) (f : Nat → α)
    {S : Nat → Prop} (m1 m0 : Nat) (h1 : S m1) (h0 : S m0) :
    PermOn S f (med3Step lt f m1 m0) :=
  permOn_ite _ (permOn_fswap f h1 h0) (PermOn.self S f)

theorem med3Step_fst {α : Type} (lt : α → α → Bool) (kf : α → Nat)
    (hk : ∀ x y, lt x y = true ↔ kf x < kf y) (f : Nat → α) (m1 m0 : Nat) :
    kf (med3Step lt f m1 m0 m0) ≤ kf (med3Step lt f m1 m0 m1) := by
  unfold med3Step
  split
  case isTrue h =>
    rw [fswap_snd, fswap_fst]
    exact le_of_lt ((hk _ _).mp h)
  case isFalse h =>
    rcases Bool.eq_false_or_eq_true (lt (f m1) (f m0)) with hb | hb
    · exact absurd hb h
    · by_contra hcc
      rw [(hk _ _).mpr (by omega)] at hb
      simp at hb

theorem med3Step_other {α : Type} (lt : α → α → Bool) (f : Nat → α)
    (m1 m0 x : Nat) (h1 : x ≠ m1) (h0 : x ≠ m0) :
    med3Step lt f m1 m0 x = f x := by
  unfold med3Step
  split
  · exact fswap_other f h1 h0
  · rfl

/-- `medianOfThree` rearranges only the three named positions. -/
theorem medianOfThreeF_perm {α : Type} (lt : α → α → Bool) (f : Nat → α)
    {S : Nat → Prop} (m1 m0 m2 : Nat) (h1 : S m1) (h0 : S m0) (h2 : S m2) :
    PermOn S f (medianOfThreeF lt f m1 m0 m2) := by
  unfold medianOfThreeF
  refine permOn_ite _ ?_ (med3Step_perm lt f m1 m0 h1 h0)
  refine PermOn.comp (med3Step_perm lt f m1 m0 h1 h0) ?_
  refine PermOn.comp (permOn_fswap _ h2 h1) ?_
  exact med3Step_perm lt _ m1 m0 h1 h0

/-- After `medianOfThree`, the value at `m1` is at most the value at
`m2` (the median lands at `m1`). -/
theorem medianOfThreeF_ord {α : Type} (lt : α → α → Bool) (kf : α → Nat)
    (hk : ∀ x y, lt x y = true ↔ kf x < kf y) (f : Nat → α)
    (m1 m0 m2 : Nat) (h01 : m0 ≠ m1) (h02 : m0 ≠ m2) (h12 : m1 ≠ m2) :
    kf (medianOfThreeF lt f m1 m0 m2 m1) ≤
      kf (medianOfThreeF lt f m1 m0 m2 m2) := by
  unfold medianOfThreeF
  split
  case isTrue hS2 =>
    set F1 := med3Step lt f m1 m0 with hF1
    have hF2m1 : fswap F1 m2 m1 m1 = F1 m2 := fswap_snd F1 m2 m1
    have hF2m0 : fswap F1 m2 m1 m0 = F1 m0 := fswap_other F1 h02 h01
    have hresm2 : med3Step lt (fswap F1 m2 m1) m1 m0 m2 = F1 m1 := by
      rw [med3Step_other lt (fswap F1 m2 m1) m1 m0 m2 (fun h => h12 h.symm)
        (fun h => h02 h.symm), fswap_fst]
    rw [hresm2]
    have hres : med3Step lt (fswap F1 m2 m1) m1 m0 =
        if lt (fswap F1 m2 m1 m1) (fswap F1 m2 m1 m0) = true
        then fswap (fswap F1 m2 m1) m1 m0 else fswap F1 m2 m1 := rfl
    by_cases hS3 : lt (fswap F1 m2 m1 m1) (fswap F1 m2 m1 m0) = true
    · rw [hres, if_pos hS3, fswap_fst, hF2m0]
      exact med3Step_fst lt kf hk f m1 m0
    · rw [hres, if_neg hS3, hF2m1]
      exact le_of_lt ((hk _ _).mp hS2)
  case isFalse hS2 =>
    rcases Bool.eq_false_or_eq_true
      (lt (med3Step lt f m1 m0 m2) (med3Step lt f m1 m0 m1)) with hb | hb
    · exact absurd hb hS2
    · by_contra hcc
      rw [(hk _ _).mpr (by omega)] at hb
      simp at hb

/-- The contract of `doPivot` on result `r = (data, midlo, midhi)`:
`[lo, midlo)` is at most the pivot value (now sitting at `midlo`),
`[midlo, midhi)` equals it, `[midhi, hi)` is at least it, and only
`[lo, hi)` was rearranged. -/
def PivotPost {α : Type} (kf : α → Nat) (lo hi : Nat) (f : Nat → α)
    (r : (Nat → α) × Nat × Nat) : Prop :=
  lo ≤ r.2.1 ∧ r.2.1 < r.2.2 ∧ r.2.2 ≤ hi ∧ PermWithin lo hi f r.1 ∧
  (∀ x, lo ≤ x → x < r.2.1 → kf (r.1 x) ≤ kf (r.1 r.2.1)) ∧
  (∀ x, r.2.1 ≤ x → x < r.2.2 → kf (r.1 x) = kf (r.1 r.2.1)) ∧
  (∀ x, r.2.2 ≤ x → x < hi → kf (r.1 r.2.1) ≤ kf (r.1 x))

theorem PivotPost.rebase {α : Type} {kf : α → Nat} {lo hi : Nat}
    {f g : Nat → α} {r : (Nat → α) × Nat × Nat}
    (h : PivotPost kf lo hi g r) (hp : PermWithin lo hi f g) :
    PivotPost kf lo hi f r := by
  obtain ⟨h1, h2, h3, h4, h5, h6, h7⟩ := h
  exact ⟨h1, h2, h3, hp.trans h4, h5, h6, h7⟩

/-- The tail after the duplicate probes establishes the `doPivot`
contract, given the three regions. -/
theorem dpDupAfter2_spec {α : Type} (lt : α → α → Bool) (kf : α → Nat)
    (hk : ∀ x y, lt x y = true ↔ kf x < kf y)
    (fd2 : Nat → α) (lo hi a0 b2 c1 d3 : Nat)
    (hla : lo < a0) (hlb : lo < b2) (hb2c1 : b2 ≤ c1) (hc1hi : c1 ≤ hi)
    (hmid : ∀ x, lo + 1 ≤ x → x < b2 → kf (fd2 x) ≤ kf (fd2 lo))
    (hband : ∀ x, b2 ≤ x → x < c1 → kf (fd2 x) = kf (fd2 lo))
    (hhigh : ∀ x, c1 ≤ x → x < hi → kf (fd2 lo) ≤ kf (fd2 x)) :
    PivotPost kf lo hi fd2 (dpDupAfter2 lt fd2 lo a0 b2 c1 d3) := by
  unfold dpDupAfter2
  split
  case isTrue hd =>
    obtain ⟨hp1, hp2, hp3, hp4, hp5⟩ :=
      protLoop_spec lt kf hk fd2 lo c1 a0 b2 hla hlb hmid hband
    set b3 := (protLoop lt fd2 lo a0 b2).2 with hb3def
    set f3 := (protLoop lt fd2 lo a0 b2).1 with hf3def
    have hf3lo : f3 lo = fd2 lo := hp3.outside lo (by omega)
    have hf3out : ∀ x, b2 ≤ x → f3 x = fd2 x :=
      fun x hx => hp3.outside x (by omega)
    rw [hf3lo] at hp4 hp5
    have hg1 : fswap f3 lo (b3-1) (b3-1) = f3 lo := fswap_snd f3 lo (b3-1)
    have hgo : ∀ x, x ≠ lo → x ≠ b3-1 → fswap f3 lo (b3-1) x = f3 x :=
      fun x h1 h2 => fswap_other f3 h1 h2
    unfold PivotPost
    dsimp only
    refine ⟨by omega, by omega, hc1hi, ?_, ?_, ?_, ?_⟩
    · refine PermWithin.trans (hp3.mono (by omega) (by omega)) ?_
      exact permWithin_fswap f3 (le_refl lo) (by omega) (by omega) (by omega)
    · intro x hx1 hx2
      rw [hg1, hf3lo]
      by_cases hxlo : x = lo
      · rw [hxlo, fswap_fst]
        exact hp4 (b3-1) (by omega) (by omega)
      · rw [hgo x hxlo (by omega)]
        exact hp4 x (by omega) (by omega)
    · intro x hx1 hx2
      rw [hg1, hf3lo]
      by_cases hxb : x = b3-1
      · rw [hxb, hg1, hf3lo]
      · rw [hgo x (by omega) hxb]
        by_cases hxb2 : x < b2
        · exact hp5 x (by omega) (by omega)
        · rw [hf3out x (by omega)]
          exact hband x (by omega) (by omega)
    · intro x hx1 hx2
      rw [hg1, hf3lo]
      rw [hgo x (by omega) (by omega), hf3out x (by omega)]
      exact hhigh x (by omega) hx2
  case isFalse hd =>
    have hg1 : fswap fd2 lo (b2-1) (b2-1) = fd2 lo := fswap_snd fd2 lo (b2-1)
    have hgo : ∀ x, x ≠ lo → x ≠ b2-1 → fswap fd2 lo (b2-1) x = fd2 x :=
      fun x h1 h2 => fswap_other fd2 h1 h2
    unfold PivotPost
    dsimp only
    refine ⟨by omega, by omega, hc1hi, ?_, ?_, ?_, ?_⟩
    · exact permWithin_fswap fd2 (le_refl lo) (by omega) (by omega) (by omega)
    · intro x hx1 hx2
      rw [hg1]
      by_cases hxlo : x = lo
      · rw [hxlo, fswap_fst]
        exact hmid (b2-1) (by omega) (by omega)
      · rw [hgo x hxlo (by omega)]
        exact hmid x (by omega) (by omega)
    · intro x hx1 hx2
      rw [hg1]
      by_cases hxb : x = b2-1
      · rw [hxb, hg1]
      · rw [hgo x (by omega) hxb]
        exact hband x (by omega) (by omega)
    · intro x hx1 hx2
      rw [hg1]
      rw [hgo x (by omega) (by omega)]
      exact hhigh x (by omega) hx2

/-- The duplicate block from its second probe on establishes the
`doPivot` contract, given the three regions on entry. -/
theorem dpDupAfter1_spec {α : Type} (lt : α → α → Bool) (kf : α → Nat)
    (hk : ∀ x y, lt x y = true ↔ kf x < kf y)
    (fd1 : Nat → α) (lo hi m a0 b0 c1 d1 : Nat)
    (hla : lo < a0) (hlm : lo + 1 ≤ m) (hmb : m + 2 ≤ b0)
    (hbc : b0 ≤ c1) (hc1hi : c1 ≤ hi)
    (hmid : ∀ x, lo + 1 ≤ x → x < b0 → kf (fd1 x) ≤ kf (fd1 lo))
    (hband : ∀ x, b0 ≤ x → x < c1 → kf (fd1 x) = kf (fd1 lo))
    (hhigh : ∀ x, c1 ≤ x → x < hi → kf (fd1 lo) ≤ kf (fd1 x)) :
    PivotPost kf lo hi fd1 (dpDupAfter1 lt fd1 lo m a0 b0 c1 d1) := by
  unfold dpDupAfter1 dpB1 dpD2
  by_cases hq2 : lt (fd1 (b0 - 1)) (fd1 lo) = false
  · have hq2' : kf (fd1 (b0 - 1)) = kf (fd1 lo) := by
      have hle := hmid (b0 - 1) (by omega) (by omega)
      have hnlt : ¬ kf (fd1 (b0 - 1)) < kf (fd1 lo) :=
        fun hc => Bool.noConfusion (((hk _ _).mpr hc).symm.trans hq2)
      omega
    rw [if_pos hq2, if_pos hq2]
    by_cases hq3 : lt (fd1 m) (fd1 lo) = false
    · have hq3' : kf (fd1 m) = kf (fd1 lo) := by
        have hle := hmid m hlm (by omega)
        have hnlt : ¬ kf (fd1 m) < kf (fd1 lo) :=
          fun hc => Bool.noConfusion (((hk _ _).mpr hc).symm.trans hq3)
        omega
      rw [if_pos hq3, if_pos hq3, if_pos hq3]
      have hlo2 : fswap fd1 m (b0 - 1 - 1) lo = fd1 lo :=
        fswap_other fd1 (by omega) (by omega)
      refine PivotPost.rebase
        (dpDupAfter2_spec lt kf hk (fswap fd1 m (b0 - 1 - 1)) lo hi a0
          (b0 - 1 - 1) c1 (d1 + 1 + 1) hla (by omega) (by omega) hc1hi
          ?_ ?_ ?_)
        (permWithin_fswap fd1 (by omega) (by omega) (by omega) (by omega))
      · intro x hx1 hx2
        rw [hlo2]
        by_cases hxm : x = m
        · rw [hxm, fswap_fst]
          exact hmid (b0 - 1 - 1) (by omega) (by omega)
        · rw [fswap_other fd1 hxm (by omega)]
          exact hmid x hx1 (by omega)
      · intro x hx1 hx2
        rw [hlo2]
        by_cases hxb : x = b0 - 1 - 1
        · rw [hxb, fswap_snd]
          exact hq3'
        · rw [fswap_other fd1 (by omega) hxb]
          by_cases hxb1 : x = b0 - 1
          · rw [hxb1]
            exact hq2'
          · exact hband x (by omega) hx2
      · intro x hx1 hx2
        rw [hlo2, fswap_other fd1 (by omega) (by omega)]
        exact hhigh x hx1 hx2
    · rw [if_neg hq3, if_neg hq3, if_neg hq3]
      refine dpDupAfter2_spec lt kf hk fd1 lo hi a0 (b0 - 1) c1 (d1 + 1)
        hla (by omega) (by omega) hc1hi
        (fun x hx1 hx2 => hmid x hx1 (by omega)) ?_ hhigh
      intro x hx1 hx2
      by_cases hxb : x = b0 - 1
      · rw [hxb]
        exact hq2'
      · exact hband x (by omega) hx2
  · rw [if_neg hq2, if_neg hq2]
    by_cases hq3 : lt (fd1 m) (fd1 lo) = false
    · have hq3' : kf (fd1 m) = kf (fd1 lo) := by
        have hle := hmid m hlm (by omega)
        have hnlt : ¬ kf (fd1 m) < kf (fd1 lo) :=
          fun hc => Bool.noConfusion (((hk _ _).mpr hc).symm.trans hq3)
        omega
      rw [if_pos hq3, if_pos hq3, if_pos hq3]
      have hlo2 : fswap fd1 m (b0 - 1) lo = fd1 lo :=
        fswap_other fd1 (by omega) (by omega)
      refine PivotPost.rebase
        (dpDupAfter2_spec lt kf hk (fswap fd1 m (b0 - 1)) lo hi a0
          (b0 - 1) c1 (d1 + 1) hla (by omega) (by omega) hc1hi
          ?_ ?_ ?_)
        (permWithin_fswap fd1 (by omega) (by omega) (by omega) (by omega))
      · intro x hx1 hx2
        rw [hlo2]
        by_cases hxm : x = m
        · rw [hxm, fswap_fst]
          exact hmid (b0 - 1) (by omega) (by omega)
        · rw [fswap_other fd1 hxm (by omega)]
          exact hmid x hx1 (by omega)
      · intro x hx1 hx2
        rw [hlo2]
        by_cases hxb : x = b0 - 1
        · rw [hxb, fswap_snd]
          exact hq3'
        · rw [fswap_other fd1 (by omega) hxb]
          exact hband x (by omega) hx2
      · intro x hx1 hx2
        rw [hlo2, fswap_other fd1 (by omega) (by omega)]
        exact hhigh x hx1 hx2
    · rw [if_neg hq3, if_neg hq3, if_neg hq3]
      exact dpDupAfter2_spec lt kf hk fd1 lo hi a0 b0 c1 d1
        hla (by omega) hbc hc1hi hmid hband hhigh

/-- The whole duplicate block of `doPivot` establishes the contract,
given the partition invariants on entry. -/
theorem dpDup_spec {α : Type} (lt : α → α → Bool) (kf : α → Nat)
    (hk : ∀ x y, lt x y = true ↔ kf x < kf y)
    (f2 : Nat → α) (lo hi m a0 b0 c0 : Nat)
    (hla : lo < a0) (hlm : lo + 1 ≤ m) (hmb : m + 2 ≤ b0)
    (hbc : b0 ≤ c0) (hch : c0 + 2 ≤ hi)
    (hmid : ∀ x, lo + 1 ≤ x → x < b0 → kf (f2 x) ≤ kf (f2 lo))
    (hband : ∀ x, b0 ≤ x → x < c0 → kf (f2 x) = kf (f2 lo))
    (hhigh : ∀ x, c0 ≤ x → x < hi - 1 → kf (f2 lo) < kf (f2 x))
    (hlast : kf (f2 lo) ≤ kf (f2 (hi - 1))) :
    PivotPost kf lo hi f2 (dpDup lt f2 lo hi m a0 b0 c0) := by
  unfold dpDup
  by_cases hq1 : lt (f2 lo) (f2 (hi - 1)) = false
  · have hq1' : kf (f2 (hi - 1)) = kf (f2 lo) := by
      have hnlt : ¬ kf (f2 lo) < kf (f2 (hi - 1)) :=
        fun hc => Bool.noConfusion (((hk _ _).mpr hc).symm.trans hq1)
      omega
    rw [if_pos hq1, if_pos hq1, if_pos hq1]
    have hlo2 : fswap f2 c0 (hi - 1) lo = f2 lo :=
      fswap_other f2 (by omega) (by omega)
    refine PivotPost.rebase
      (dpDupAfter1_spec lt kf hk (fswap f2 c0 (hi - 1)) lo hi m a0 b0
        (c0 + 1) 1 hla hlm hmb (by omega) (by omega) ?_ ?_ ?_)
      (permWithin_fswap f2 (by omega) (by omega) (by omega) (by omega))
    · intro x hx1 hx2
      rw [hlo2, fswap_other f2 (by omega) (by omega)]
      exact hmid x hx1 hx2
    · intro x hx1 hx2
      rw [hlo2]
      by_cases hxc : x = c0
      · rw [hxc, fswap_fst]
        exact hq1'
      · rw [fswap_other f2 hxc (by omega)]
        exact hband x hx1 (by omega)
    · intro x hx1 hx2
      rw [hlo2]
      by_cases hxh : x = hi - 1
      · rw [hxh, fswap_snd]
        exact le_of_lt (hhigh c0 (le_refl c0) (by omega))
      · rw [fswap_other f2 (by omega) hxh]
        exact le_of_lt (hhigh x (by omega) (by omega))
  · rw [if_neg hq1, if_neg hq1, if_neg hq1]
    refine dpDupAfter1_spec lt kf hk f2 lo hi m a0 b0 c0 0
      hla hlm hmb hbc (by omega) hmid hband ?_
    intro x hx1 hx2
    by_cases hxh : x = hi - 1
    · rw [hxh]
      exact hlast
    · exact le_of_lt (hhigh x hx1 (by omega))

/-- `doPivot` satisfies its contract on every range of more than 12
elements: the result `(data, midlo, midhi)` partitions `[lo, hi)` around
the pivot value, rearranging only `[lo, hi)`. -/
theorem doPivotF_spec {α : Type} (lt : α → α → Bool) (kf : α → Nat)
    (hk : ∀ x y, lt x y = true ↔ kf x < kf y)
    (f : Nat → α) (lo hi : Nat) (hn : 12 < hi - lo) :
    PivotPost kf lo hi f (doPivotF lt f lo hi) := by
  have hm : pivotM lo hi = lo + (hi - lo) / 2 := rfl
  have hprep : PermWithin lo hi f (pivotPrep lt f lo hi) := by
    refine PermOn.toPermWithin (S := fun x => lo ≤ x ∧ x < hi) ?_
      (fun x hx => hx)
    unfold pivotPrep
    by_cases h40 : 40 < hi - lo
    · rw [if_pos h40]
      refine PermOn.comp (g := ninther lt f lo hi) ?_
        (medianOfThreeF_perm lt _ lo (pivotM lo hi) (hi-1)
          ⟨by omega, by omega⟩ ⟨by omega, by omega⟩ ⟨by omega, by omega⟩)
      unfold ninther
      refine PermOn.comp
        (medianOfThreeF_perm lt f lo (lo + (hi-lo)/8) (lo + 2*((hi-lo)/8))
          ⟨by omega, by omega⟩ ⟨by omega, by omega⟩ ⟨by omega, by omega⟩) ?_
      refine PermOn.comp
        (medianOfThreeF_perm lt _ (pivotM lo hi) (pivotM lo hi - (hi-lo)/8)
          (pivotM lo hi + (hi-lo)/8)
          ⟨by omega, by omega⟩ ⟨by omega, by omega⟩ ⟨by omega, by omega⟩) ?_
      exact medianOfThreeF_perm lt _ (hi-1) (hi-1 - (hi-lo)/8)
        (hi-1 - 2*((hi-lo)/8))
        ⟨by omega, by omega⟩ ⟨by omega, by omega⟩ ⟨by omega, by omega⟩
    · rw [if_neg h40]
      exact medianOfThreeF_perm lt f lo (pivotM lo hi) (hi-1)
        ⟨by omega, by omega⟩ ⟨by omega, by omega⟩ ⟨by omega, by omega⟩
  have hpord : kf (pivotPrep lt f lo hi lo) ≤
      kf (pivotPrep lt f lo hi (hi-1)) := by
    unfold pivotPrep
    exact medianOfThreeF_ord lt kf hk _ lo (pivotM lo hi) (hi-1)
      (by omega) (by omega) (by omega)
  have ha1 : lo + 1 ≤ pivotA0 lt f lo hi :=
    advA_ge lt (pivotPrep lt f lo hi) lo (lo+1) (hi-1)
  have ha2 : pivotA0 lt f lo hi ≤ hi - 1 :=
    advA_le lt (pivotPrep lt f lo hi) lo (lo+1) (hi-1) (by omega)
  have hamid : ∀ x, lo + 1 ≤ x → x < pivotA0 lt f lo hi →
      kf (pivotPrep lt f lo hi x) ≤ kf (pivotPrep lt f lo hi lo) :=
    fun x hx1 hx2 => le_of_lt ((hk _ _).mp
      (advA_scan lt (pivotPrep lt f lo hi) lo (lo+1) (hi-1) x hx1 hx2))
  obtain ⟨heq0, hble0, hcle0, hperm0, hmid0, hhigh0⟩ :=
    partLoop_spec lt kf hk (pivotPrep lt f lo hi) lo hi
      (pivotA0 lt f lo hi) (hi - 1) (by omega) ha2 (le_refl (hi-1))
      hamid (fun x hx1 hx2 => absurd hx2 (by omega))
  have heq : (pivotPart lt f lo hi).2.1 = (pivotPart lt f lo hi).2.2 := heq0
  have hble : pivotA0 lt f lo hi ≤ (pivotPart lt f lo hi).2.1 := hble0
  have hcle : (pivotPart lt f lo hi).2.2 ≤ hi - 1 := hcle0
  have hperm : PermWithin (pivotA0 lt f lo hi) (hi-1)
      (pivotPrep lt f lo hi) (pivotPart lt f lo hi).1 := hperm0
  have hmidp : ∀ x, lo + 1 ≤ x → x < (pivotPart lt f lo hi).2.1 →
      kf ((pivotPart lt f lo hi).1 x) ≤ kf ((pivotPart lt f lo hi).1 lo) :=
    hmid0
  have hhighp : ∀ x, (pivotPart lt f lo hi).2.2 ≤ x → x < hi - 1 →
      kf ((pivotPart lt f lo hi).1 lo) < kf ((pivotPart lt f lo hi).1 x) :=
    hhigh0
  have hflo : (pivotPart lt f lo hi).1 lo = pivotPrep lt f lo hi lo :=
    hperm.outside lo (by omega)
  have hfhi : (pivotPart lt f lo hi).1 (hi-1) =
      pivotPrep lt f lo hi (hi-1) := hperm.outside (hi-1) (by omega)
  have hplast : kf ((pivotPart lt f lo hi).1 lo) ≤
      kf ((pivotPart lt f lo hi).1 (hi-1)) := by
    rw [hflo, hfhi]
    exact hpord
  have hbase : PermWithin lo hi f (pivotPart lt f lo hi).1 :=
    hprep.trans (hperm.mono (by omega) (by omega))
  have hhighw : ∀ x, (pivotPart lt f lo hi).2.2 ≤ x → x < hi →
      kf ((pivotPart lt f lo hi).1 lo) ≤ kf ((pivotPart lt f lo hi).1 x) := by
    intro x hx1 hx2
    by_cases hxh : x = hi - 1
    · rw [hxh]
      exact hplast
    · exact le_of_lt (hhighp x hx1 (by omega))
  unfold doPivotF
  by_cases h5 : hi - (pivotPart lt f lo hi).2.2 < 5
  · rw [if_pos h5]
    refine PivotPost.rebase
      (dpDupAfter2_spec lt kf hk (pivotPart lt f lo hi).1 lo hi
        (pivotA0 lt f lo hi) (pivotPart lt f lo hi).2.1
        (pivotPart lt f lo hi).2.2 2 (by omega) (by omega) (by omega)
        (by omega) hmidp (fun x hx1 hx2 => absurd hx2 (by omega)) hhighw)
      hbase
  · rw [if_neg h5]
    by_cases h4 : hi - (pivotPart lt f lo hi).2.2 < (hi - lo) / 4
    · rw [if_pos h4]
      refine PivotPost.rebase
        (dpDup_spec lt kf hk (pivotPart lt f lo hi).1 lo hi (pivotM lo hi)
          (pivotA0 lt f lo hi) (pivotPart lt f lo hi).2.1
          (pivotPart lt f lo hi).2.2 (by omega) (by omega) (by omega)
          (by omega) (by omega) hmidp
          (fun x hx1 hx2 => absurd hx2 (by omega)) hhighp hplast)
        hbase
    · rw [if_neg h4]
      refine PivotPost.rebase
        (dpDupAfter2_spec lt kf hk (pivotPart lt f lo hi).1 lo hi
          (pivotA0 lt f lo hi) (pivotPart lt f lo hi).2.1
          (pivotPart lt f lo hi).2.2 0 (by omega) (by omega) (by omega)
          (by omega) hmidp (fun x hx1 hx2 => absurd hx2 (by omega)) hhighw)
        hbase

/-- Two sorted halves separated by a band of pivot duplicates form a
sorted range. -/
theorem sortedOn_glue {α : Type} (kf : α → Nat) (h : Nat → α)
    (lo m1 m2 hi V : Nat) (hmm : m1 ≤ m2)
    (hs1 : sortedOn kf h lo m1) (hs2 : sortedOn kf h m2 hi)
    (hlow : ∀ x, lo ≤ x → x < m1 → kf (h x) ≤ V)
    (hmidv : ∀ x, m1 ≤ x → x < m2 → kf (h x) = V)
    (hhigh : ∀ x, m2 ≤ x → x < hi → V ≤ kf (h x)) :
    sortedOn kf h lo hi := by
  intro p q hp hpq hq
  by_cases hp1 : p < m1
  · by_cases hq1 : q < m1
    · exact hs1 p q hp hpq hq1
    · by_cases hq2 : q < m2
      · rw [hmidv q (by omega) hq2]
        exact hlow p hp hp1
      · exact le_trans (hlow p hp hp1) (hhigh q (by omega) hq)
  · by_cases hp2 : p < m2
    · by_cases hq2 : q < m2
      · rw [hmidv p (by omega) hp2, hmidv q (by omega) hq2]
      · rw [hmidv p (by omega) hp2]
        exact hhigh q (by omega) hq
    · exact hs2 p q (by omega) hpq hq

/-- Sortedness transfers along pointwise equality on the range. -/
theorem sortedOn_congr {α : Type} {kf : α → Nat} {f g : Nat → α}
    {lo hi : Nat} (h : ∀ x, lo ≤ x → x < hi → g x = f x)
    (hs : sortedOn kf f lo hi) : sortedOn kf g lo hi := by
  intro p q hp hpq hq
  rw [h p hp (by omega), h q (by omega) hq]
  exact hs p q hp hpq hq

/-- Go's `quickSort` sorts `[lo, hi)` and rearranges only `[lo, hi)`,
for every depth budget. -/
theorem quickSortF_spec {α : Type} (lt : α → α → Bool) (kf : α → Nat)
    (hk : ∀ x y, lt x y = true ↔ kf x < kf y)
    (f : Nat → α) (lo hi depth : Nat) :
    sortedOn kf (quickSortF lt f lo hi depth) lo hi ∧
      PermWithin lo hi f (quickSortF lt f lo hi depth) := by
  by_cases h12 : 12 < hi - lo
  · by_cases hd : depth = 0
    · rw [quickSortF, dif_pos h12, dif_pos hd]
      exact heapSortF_spec lt kf hk f lo hi
    · rw [quickSortF, dif_pos h12, dif_neg hd]
      dsimp only
      have hP := doPivotF_spec lt kf hk f lo hi h12
      unfold PivotPost at hP
      obtain ⟨hq1, hq2, hq3, hperm0, hlow, hmidv, hhigh⟩ := hP
      by_cases hside : (doPivotF lt f lo hi).2.1 - lo <
          hi - (doPivotF lt f lo hi).2.2
      · rw [if_pos hside]
        obtain ⟨hs1, hp1⟩ := quickSortF_spec lt kf hk
          (doPivotF lt f lo hi).1 lo (doPivotF lt f lo hi).2.1 (depth - 1)
        obtain ⟨hs2, hp2⟩ := quickSortF_spec lt kf hk
          (quickSortF lt (doPivotF lt f lo hi).1 lo
            (doPivotF lt f lo hi).2.1 (depth - 1))
          (doPivotF lt f lo hi).2.2 hi (depth - 1)
        have hfix2 : ∀ x, x < (doPivotF lt f lo hi).2.2 →
            quickSortF lt (quickSortF lt (doPivotF lt f lo hi).1 lo
              (doPivotF lt f lo hi).2.1 (depth - 1))
              (doPivotF lt f lo hi).2.2 hi (depth - 1) x =
            quickSortF lt (doPivotF lt f lo hi).1 lo
              (doPivotF lt f lo hi).2.1 (depth - 1) x :=
          fun x hx => hp2.outside x (Or.inl hx)
        have hfix1 : ∀ x, (doPivotF lt f lo hi).2.1 ≤ x →
            quickSortF lt (doPivotF lt f lo hi).1 lo
              (doPivotF lt f lo hi).2.1 (depth - 1) x =
            (doPivotF lt f lo hi).1 x :=
          fun x hx => hp1.outside x (Or.inr hx)
        refine ⟨sortedOn_glue kf _ lo (doPivotF lt f lo hi).2.1
          (doPivotF lt f lo hi).2.2 hi
          (kf ((doPivotF lt f lo hi).1 (doPivotF lt f lo hi).2.1))
          (by omega) ?_ hs2 ?_ ?_ ?_, ?_⟩
        · refine sortedOn_congr (fun x hx1 hx2 => hfix2 x (by omega)) hs1
        · intro x hx1 hx2
          rw [hfix2 x (by omega)]
          exact hp1.bound (fun v => kf v ≤ _) hlow x hx1 hx2
        · intro x hx1 hx2
          rw [hfix2 x hx2, hfix1 x hx1]
          exact hmidv x hx1 hx2
        · intro x hx1 hx2
          refine hp2.bound (fun v =>
            kf ((doPivotF lt f lo hi).1 (doPivotF lt f lo hi).2.1) ≤ kf v)
            ?_ x hx1 hx2
          intro y hy1 hy2
          rw [hfix1 y (by omega)]
          exact hhigh y hy1 hy2
        · exact hperm0.trans ((hp1.mono (le_refl lo) (by omega)).trans
            (hp2.mono (by omega) (le_refl hi)))
      · rw [if_neg hside]
        obtain ⟨hs1, hp1⟩ := quickSortF_spec lt kf hk
          (doPivotF lt f lo hi).1 (doPivotF lt f lo hi).2.2 hi (depth - 1)
        obtain ⟨hs2, hp2⟩ := quickSortF_spec lt kf hk
          (quickSortF lt (doPivotF lt f lo hi).1
            (doPivotF lt f lo hi).2.2 hi (depth - 1))
          lo (doPivotF lt f lo hi).2.1 (depth - 1)
        have hfix2 : ∀ x, (doPivotF lt f lo hi).2.1 ≤ x →
            quickSortF lt (quickSortF lt (doPivotF lt f lo hi).1
              (doPivotF lt f lo hi).2.2 hi (depth - 1))
              lo (doPivotF lt f lo hi).2.1 (depth - 1) x =
            quickSortF lt (doPivotF lt f lo hi).1
              (doPivotF lt f lo hi).2.2 hi (depth - 1) x :=
          fun x hx => hp2.outside x (Or.inr hx)
        have hfix1 : ∀ x, x < (doPivotF lt f lo hi).2.2 →
            quickSortF lt (doPivotF lt f lo hi).1
              (doPivotF lt f lo hi).2.2 hi (depth - 1) x =
            (doPivotF lt f lo hi).1 x :=
          fun x hx => hp1.outside x (Or.inl hx)
        refine ⟨sortedOn_glue kf _ lo (doPivotF lt f lo hi).2.1
          (doPivotF lt f lo hi).2.2 hi
          (kf ((doPivotF lt f lo hi).1 (doPivotF lt f lo hi).2.1))
          (by omega) hs2 ?_ ?_ ?_ ?_, ?_⟩
        · refine sortedOn_congr (fun x hx1 hx2 => hfix2 x (by omega)) hs1
        · intro x hx1 hx2
          refine hp2.bound (fun v =>
            kf v ≤ kf ((doPivotF lt f lo hi).1 (doPivotF lt f lo hi).2.1))
            ?_ x hx1 hx2
          intro y hy1 hy2
          rw [hfix1 y (by omega)]
          exact hlow y hy1 hy2
        · intro x hx1 hx2
          rw [hfix2 x hx1, hfix1 x hx2]
          exact hmidv x hx1 hx2
        · intro x hx1 hx2
          rw [hfix2 x (by omega)]
          exact hp1.bound (fun v => kf ((doPivotF lt f lo hi).1
            (doPivotF lt f lo hi).2.1) ≤ kf v) hhigh x hx1 hx2
        · exact hperm0.trans ((hp1.mono (by omega) (le_refl hi)).trans
            (hp2.mono (le_refl lo) (by omega)))
  · rw [quickSortF, dif_neg h12]
    by_cases h1 : 1 < hi - lo
    · rw [if_pos h1]
      obtain ⟨hs, hp⟩ := insertionSortF_spec lt kf hk
        (shellPass lt f (lo+6) hi) lo hi
      exact ⟨hs, (shellPass_perm lt f (lo+6) hi lo (by omega)).trans hp⟩
    · rw [if_neg h1]
      exact ⟨sortedOn_empty kf f (by omega), PermWithin.refl lo hi f⟩
termination_by depth
decreasing_by all_goals omega

/-- Reading a list back off its function model recovers the list. -/
theorem map_getD_range {α : Type} (l : List α) (d : α) :
    (List.range l.length).map (fun j => l.getD j d) = l := by
  induction l with
  | nil => rfl
  | cons a t ih =>
    rw [List.length_cons, List.range_succ_eq_map, List.map_cons,
      List.map_map]
    have h1 : List.map ((fun j => (a :: t).getD j d) ∘ Nat.succ)
        (List.range t.length) = List.map (fun j => t.getD j d)
        (List.range t.length) :=
      List.map_congr_left (fun x _ => rfl)
    rw [h1, ih]
    rfl

/-- Go's `sort.Sort` returns a permutation of its input that is
nondecreasing under the key that induces the comparator. -/
theorem goSortList_spec {α : Type} (lt : α → α → Bool) (kf : α → Nat)
    (hk : ∀ x y, lt x y = true ↔ kf x < kf y) (l : List α) :
    (goSortList lt l).Perm l ∧
      (goSortList lt l).Pairwise (fun a b => kf a ≤ kf b) := by
  cases l with
  | nil => exact ⟨List.Perm.refl _, List.Pairwise.nil⟩
  | cons d rest =>
    have hout : goSortList lt (d :: rest) =
        (List.range (rest.length + 1)).map
          (quickSortF lt (fun j => (d :: rest).getD j d) 0
            (rest.length + 1) (maxDepthGo (rest.length + 1))) := rfl
    obtain ⟨hs, hperm⟩ := quickSortF_spec lt kf hk
      (fun j => (d :: rest).getD j d) 0 (rest.length + 1)
      (maxDepthGo (rest.length + 1))
    constructor
    · obtain ⟨π, hg, hfix⟩ := hperm
      have hmaps : ∀ x, x < rest.length + 1 → π x < rest.length + 1 := by
        intro x hx
        by_contra hc
        have hz : π (π x) = π x := hfix (π x) (by omega)
        have := π.injective hz
        omega
      have h1 : ((List.range (rest.length + 1)).map π).Perm
          (List.range (rest.length + 1)) := by
        have hnd : ((List.range (rest.length + 1)).map π).Nodup :=
          (List.nodup_range _).map π.injective
        have hsub : ((List.range (rest.length + 1)).map π) ⊆
            List.range (rest.length + 1) := by
          intro x hx
          rw [List.mem_map] at hx
          obtain ⟨y, hy, rfl⟩ := hx
          rw [List.mem_range] at hy ⊢
          exact hmaps y hy
        exact (hnd.subperm hsub).perm_of_length_le (by simp)
      have h2 : goSortList lt (d :: rest) =
          ((List.range (rest.length + 1)).map π).map
            (fun j => (d :: rest).getD j d) := by
        rw [hout, List.map_map]
        exact List.map_congr_left (fun x _ => hg x)
      rw [h2]
      refine (h1.map (fun j => (d :: rest).getD j d)).trans ?_
      have h5 : (List.range (rest.length + 1)).map
          (fun j => (d :: rest).getD j d) = d :: rest :=
        map_getD_range (d :: rest) d
      rw [h5]
    · rw [hout, List.pairwise_iff_getElem]
      intro i j hi hj hij
      have hi' : i < rest.length + 1 := by simpa using hi
      have hj' : j < rest.length + 1 := by simpa using hj
      simp only [List.getElem_map, List.getElem_range]
      exact hs i j (Nat.zero_le i) (le_of_lt hij) hj'

/-- The rank the kind sorter's comparator effectively assigns: the
ordering-map value, or the sentinel `s` for kinds absent from the map. -/
def ordRank (o : List (String × Nat)) (s : Nat) (m : manifest) : Nat :=
  match ordGet o m.head.kind with
  | none => s
  | some r => r

/-- `kindSorter.Less` is exactly rank comparison once unknown kinds get
a sentinel rank above every map value. -/
theorem kindSorterLess_key (o : List (String × Nat)) (s : Nat)
    (hbound : ∀ k r, ordGet o k = some r → r < s) :
    ∀ a b, kindSorterLess o a b = true ↔ ordRank o s a < ordRank o s b := by
  intro a b
  unfold kindSorterLess ordRank
  cases hga : ordGet o a.head.kind with
  | none =>
    cases hgb : ordGet o b.head.kind with
    | none => simp
    | some rb =>
      have := hbound _ _ hgb
      simp
      omega
  | some ra =>
    cases hgb : ordGet o b.head.kind with
    | none =>
      simp
      exact hbound _ _ hga
    | some rb => simp

/-- Reading an ordering map after a write. -/
theorem ordGet_ordSet (o : List (String × Nat)) (k : String) (v : Nat)
    (k' : String) :
    ordGet (ordSet o k v) k' = if k = k' then some v else ordGet o k' := by
  induction o with
  | nil => rfl
  | cons hd tl ih =>
    obtain ⟨k0, w0⟩ := hd
    unfold ordSet
    by_cases h0 : k0 = k
    · subst h0
      rw [if_pos rfl]
      unfold ordGet
      by_cases h1 : k0 = k'
      · rw [if_pos h1, if_pos h1]
      · rw [if_neg h1, if_neg h1, if_neg h1]
    · rw [if_neg h0]
      unfold ordGet
      by_cases h1 : k0 = k'
      · rw [if_pos h1, if_pos h1]
        have h2 : ¬ k = k' := fun h => h0 (h1.trans h.symm)
        rw [if_neg h2]
      · rw [if_neg h1, if_neg h1, ih]

/-- Values written by the ordering loop stay below `v` plus the number
of kinds still to process. -/
theorem ordGet_buildOrderingAux_lt (s : List String) : ∀ (v : Nat)
    (o : List (String × Nat)),
    (∀ k r, ordGet o k = some r → r < v) →
    ∀ k r, ordGet (buildOrderingAux s v o) k = some r →
      r < v + s.length := by
  induction s with
  | nil =>
    intro v o h k r hg
    have := h k r hg
    omega
  | cons k0 rest ih =>
    intro v o h k r hg
    have hstep : ∀ k' r', ordGet (ordSet o k0 v) k' = some r' →
        r' < v + 1 := by
      intro k' r' hg'
      rw [ordGet_ordSet] at hg'
      by_cases h0 : k0 = k'
      · rw [if_pos h0] at hg'
        have := Option.some.inj hg'
        omega
      · rw [if_neg h0] at hg'
        have := h k' r' hg'
        omega
    have := ih (v+1) (ordSet o k0 v) hstep k r hg
    rw [List.length_cons]
    omega

/-- A key is in the ordering map exactly when it was already there or it
is one of the kinds processed by the loop. -/
theorem ordGet_buildOrderingAux_isSome (s : List String) : ∀ (v : Nat)
    (o : List (String × Nat)) (k : String),
    (ordGet (buildOrderingAux s v o) k).isSome = true ↔
      k ∈ s ∨ (ordGet o k).isSome = true := by
  induction s with
  | nil =>
    intro v o k
    simp [buildOrderingAux]
  | cons k0 rest ih =>
    intro v o k
    have hstep : buildOrderingAux (k0 :: rest) v o =
        buildOrderingAux rest (v+1) (ordSet o k0 v) := rfl
    rw [hstep, ih, ordGet_ordSet]
    by_cases h0 : k0 = k
    · subst h0
      simp
    · rw [if_neg h0]
      simp only [List.mem_cons]
      constructor
      · rintro (h | h)
        · exact Or.inl (Or.inr h)
        · exact Or.inr h
      · rintro ((h | h) | h)
        · exact absurd h.symm h0
        · exact Or.inl h
        · exact Or.inr h

/-- Every rank the ordering loop stores is an index in the order at
which the kind appears. -/
theorem ordGet_buildOrderingAux_index (s : List String) : ∀ (v : Nat)
    (o : List (String × Nat)) (k : String) (r : Nat),
    ordGet (buildOrderingAux s v o) k = some r →
    ordGet o k = some r ∨
      ∃ i, i < s.length ∧ s.getD i "" = k ∧ r = v + i := by
  induction s with
  | nil =>
    intro v o k r hg
    exact Or.inl hg
  | cons k0 rest ih =>
    intro v o k r hg
    rcases ih (v+1) (ordSet o k0 v) k r hg with hcase | ⟨i, hi1, hi2, hi3⟩
    · rw [ordGet_ordSet] at hcase
      by_cases h0 : k0 = k
      · rw [if_pos h0] at hcase
        have hre := Option.some.inj hcase
        refine Or.inr ⟨0, by simp, by simpa using h0, by omega⟩
      · rw [if_neg h0] at hcase
        exact Or.inl hcase
    · refine Or.inr ⟨i+1, by simp; omega, by simpa using hi2, by omega⟩

/-- Ranks in `newKindSorter`'s ordering map are below the order's
length. -/
theorem buildOrdering_lt (s : SortOrder) (k : String) (r : Nat)
    (h : ordGet (buildOrdering s) k = some r) : r < s.length := by
  have := ordGet_buildOrderingAux_lt s 0 []
    (fun k r hg => Option.noConfusion hg) k r h
  omega

/-- A kind is found in `newKindSorter`'s ordering map exactly when it
appears in the order. -/
theorem buildOrdering_isSome (s : SortOrder) (k : String) :
    (ordGet (buildOrdering s) k).isSome = true ↔ k ∈ s := by
  have := ordGet_buildOrderingAux_isSome s 0 [] k
  simpa [ordGet] using this

/-- The rank `newKindSorter` assigns to a kind is an index at which the
kind appears in the order. -/
theorem buildOrdering_index (s : SortOrder) (k : String) (r : Nat)
    (h : ordGet (buildOrdering s) k = some r) :
    r < s.length ∧ s.getD r "" = k := by
  rcases ordGet_buildOrderingAux_index s 0 [] k r h with hc | ⟨i, hi1, hi2, hi3⟩
  · exact Option.noConfusion hc
  · have hir : i = r := by omega
    subst hir
    exact ⟨hi1, hi2⟩

/-- The effective rank of a manifest under a sort order: the index from
the ordering map, or the order's length for unknown kinds. -/
def kindRank (ordering : SortOrder) (m : manifest) : Nat :=
  ordRank (buildOrdering ordering) ordering.length m

/-- `sortByKind` permutes its input and is nondecreasing in the
effective rank. -/
theorem sortByKind_spec (ms : List manifest) (ordering : SortOrder) :
    (sortByKind ms ordering).Perm ms ∧
      (sortByKind ms ordering).Pairwise
        (fun a b => kindRank ordering a ≤ kindRank ordering b) :=
  goSortList_spec _ (kindRank ordering)
    (kindSorterLess_key _ _ (buildOrdering_lt ordering)) ms

/-!
One-step equations for the classification loop, one per branch of the
Go loop body.
-/

/-- A document is skipped when its base name starts with `_` or its
trimmed content is empty (src/main.go:247-253). -/
def skipDoc (p : String × String) : Bool :=
  headIsUnderscore (pathBase p.1) || decide ((trimSpaceGo p.2).length = 0)

theorem smLoop_skip (parse : String → Option SimpleHead)
    (apis : List String) (n c : String) (rest : List (String × String))
    (hs : List Hook) (g : List manifest)
    (hskip : headIsUnderscore (pathBase n) = true ∨
      (trimSpaceGo c).length = 0) :
    sortManifestsLoop parse apis ((n, c) :: rest) hs g =
      sortManifestsLoop parse apis rest hs g := by
  rcases hskip with h | h
  · simp only [sortManifestsLoop]
    rw [if_pos h]
  · by_cases h1 : headIsUnderscore (pathBase n) = true
    · simp only [sortManifestsLoop]
      rw [if_pos h1]
    · simp only [sortManifestsLoop]
      rw [if_neg h1, if_pos h]

theorem smLoop_parse_err (parse : String → Option SimpleHead)
    (apis : List String) (n c : String) (rest : List (String × String))
    (hs : List Hook) (g : List manifest)
    (h1 : ¬ headIsUnderscore (pathBase n) = true)
    (h2 : ¬ (trimSpaceGo c).length = 0) (hp : parse c = none) :
    sortManifestsLoop parse apis ((n, c) :: rest) hs g =
      (hs, g, some (SMError.parseError n)) := by
  simp only [sortManifestsLoop]
  rw [if_neg h1, if_neg h2, hp]

theorem smLoop_version_err (parse : String → Option SimpleHead)
    (apis : List String) (n c : String) (rest : List (String × String))
    (hs : List Hook) (g : List manifest) (sh : SimpleHead)
    (h1 : ¬ headIsUnderscore (pathBase n) = true)
    (h2 : ¬ (trimSpaceGo c).length = 0) (hp : parse c = some sh)
    (hv : sh.version ≠ "" ∧ ¬ apis.contains sh.version = true) :
    sortManifestsLoop parse apis ((n, c) :: rest) hs g =
      (hs, g, some (SMError.versionError sh.version n)) := by
  simp only [sortManifestsLoop]
  rw [if_neg h1, if_neg h2, hp]
  simp only [if_pos hv]

theorem smLoop_generic_noMeta (parse : String → Option SimpleHead)
    (apis : List String) (n c : String) (rest : List (String × String))
    (hs : List Hook) (g : List manifest) (sh : SimpleHead)
    (h1 : ¬ headIsUnderscore (pathBase n) = true)
    (h2 : ¬ (trimSpaceGo c).length = 0) (hp : parse c = some sh)
    (hv : ¬ (sh.version ≠ "" ∧ ¬ apis.contains sh.version = true))
    (hmd : sh.metadata = none) :
    sortManifestsLoop parse apis ((n, c) :: rest) hs g =
      sortManifestsLoop parse apis rest hs (g ++ [⟨n, c, sh⟩]) := by
  simp only [sortManifestsLoop]
  rw [if_neg h1, if_neg h2, hp]
  simp only [if_neg hv, hmd]

theorem smLoop_generic_noAnns (parse : String → Option SimpleHead)
    (apis : List String) (n c : String) (rest : List (String × String))
    (hs : List Hook) (g : List manifest) (sh : SimpleHead)
    (md : HeadMetadata)
    (h1 : ¬ headIsUnderscore (pathBase n) = true)
    (h2 : ¬ (trimSpaceGo c).length = 0) (hp : parse c = some sh)
    (hv : ¬ (sh.version ≠ "" ∧ ¬ apis.contains sh.version = true))
    (hmd : sh.metadata = some md) (hann : md.annotations = none) :
    sortManifestsLoop parse apis ((n, c) :: rest) hs g =
      sortManifestsLoop parse apis rest hs (g ++ [⟨n, c, sh⟩]) := by
  simp only [sortManifestsLoop]
  rw [if_neg h1, if_neg h2, hp]
  simp only [if_neg hv, hmd, hann]

theorem smLoop_generic_emptyAnns (parse : String → Option SimpleHead)
    (apis : List String) (n c : String) (rest : List (String × String))
    (hs : List Hook) (g : List manifest) (sh : SimpleHead)
    (md : HeadMetadata) (anns : List (String × String))
    (h1 : ¬ headIsUnderscore (pathBase n) = true)
    (h2 : ¬ (trimSpaceGo c).length = 0) (hp : parse c = some sh)
    (hv : ¬ (sh.version ≠ "" ∧ ¬ apis.contains sh.version = true))
    (hmd : sh.metadata = some md) (hann : md.annotations = some anns)
    (hlen : anns.length = 0) :
    sortManifestsLoop parse apis ((n, c) :: rest) hs g =
      sortManifestsLoop parse apis rest hs (g ++ [⟨n, c, sh⟩]) := by
  simp only [sortManifestsLoop]
  rw [if_neg h1, if_neg h2, hp]
  simp only [if_neg hv, hmd, hann, if_pos hlen]

theorem smLoop_generic_noHookAnno (parse : String → Option SimpleHead)
    (apis : List String) (n c : String) (rest : List (String × String))
    (hs : List Hook) (g : List manifest) (sh : SimpleHead)
    (md : HeadMetadata) (anns : List (String × String))
    (h1 : ¬ headIsUnderscore (pathBase n) = true)
    (h2 : ¬ (trimSpaceGo c).length = 0) (hp : parse c = some sh)
    (hv : ¬ (sh.version ≠ "" ∧ ¬ apis.contains sh.version = true))
    (hmd : sh.metadata = some md) (hann : md.annotations = some anns)
    (hlen : ¬ anns.length = 0) (hget : annGet anns hookAnno = none) :
    sortManifestsLoop parse apis ((n, c) :: rest) hs g =
      sortManifestsLoop parse apis rest hs (g ++ [⟨n, c, sh⟩]) := by
  simp only [sortManifestsLoop]
  rw [if_neg h1, if_neg h2, hp]
  simp only [if_neg hv, hmd, hann, if_neg hlen, hget]

theorem smLoop_hook (parse : String → Option SimpleHead)
    (apis : List String) (n c : String) (rest : List (String × String))
    (hs : List Hook) (g : List manifest) (sh : SimpleHead)
    (md : HeadMetadata) (anns : List (String × String)) (ht : String)
    (h1 : ¬ headIsUnderscore (pathBase n) = true)
    (h2 : ¬ (trimSpaceGo c).length = 0) (hp : parse c = some sh)
    (hv : ¬ (sh.version ≠ "" ∧ ¬ apis.contains sh.version = true))
    (hmd : sh.metadata = some md) (hann : md.annotations = some anns)
    (hlen : ¬ anns.length = 0) (hget : annGet anns hookAnno = some ht)
    (hre : ¬ recognizedEvents ht = []) :
    sortManifestsLoop parse apis ((n, c) :: rest) hs g =
      sortManifestsLoop parse apis rest
        (hs ++ [⟨md.name, sh.kind, n, c, recognizedEvents ht⟩]) g := by
  simp only [sortManifestsLoop]
  rw [if_neg h1, if_neg h2, hp]
  simp only [if_neg hv, hmd, hann, if_neg hlen, hget, if_neg hre]

theorem smLoop_dropped (parse : String → Option SimpleHead)
    (apis : List String) (n c : String) (rest : List (String × String))
    (hs : List Hook) (g : List manifest) (sh : SimpleHead)
    (md : HeadMetadata) (anns : List (String × String)) (ht : String)
    (h1 : ¬ headIsUnderscore (pathBase n) = true)
    (h2 : ¬ (trimSpaceGo c).length = 0) (hp : parse c = some sh)
    (hv : ¬ (sh.version ≠ "" ∧ ¬ apis.contains sh.version = true))
    (hmd : sh.metadata = some md) (hann : md.annotations = some anns)
    (hlen : ¬ anns.length = 0) (hget : annGet anns hookAnno = some ht)
    (hre : recognizedEvents ht = []) :
    sortManifestsLoop parse apis ((n, c) :: rest) hs g =
      sortManifestsLoop parse apis rest hs g := by
  simp only [sortManifestsLoop]
  rw [if_neg h1, if_neg h2, hp]
  simp only [if_neg hv, hmd, hann, if_neg hlen, hget, if_pos hre]

/-- Removing the skipped documents from the input does not change the
result of the classification loop at all: skipped documents are dropped
silently before any parsing. -/
theorem smLoop_filter (parse : String → Option SimpleHead)
    (apis : List String) : ∀ (files : List (String × String))
    (hs : List Hook) (g : List manifest),
    sortManifestsLoop parse apis (files.filter (fun p => ! skipDoc p)) hs g =
      sortManifestsLoop parse apis files hs g := by
  intro files
  induction files with
  | nil => intro hs g; rfl
  | cons p rest ih =>
    intro hs g
    obtain ⟨n, c⟩ := p
    by_cases hsk : skipDoc (n, c) = true
    · have hnk : ¬ ((! skipDoc (n, c)) = true) := by simp [hsk]
      rw [List.filter_cons, if_neg hnk, ih]
      have hdisj : headIsUnderscore (pathBase n) = true ∨
          (trimSpaceGo c).length = 0 := by
        simpa [skipDoc] using hsk
      rw [smLoop_skip parse apis n c rest hs g hdisj]
    · rw [Bool.not_eq_true] at hsk
      have hb : (! skipDoc (n, c)) = true := by simp [hsk]
      have hparts : headIsUnderscore (pathBase n) = false ∧
          ¬ (trimSpaceGo c).length = 0 := by
        simpa [skipDoc] using hsk
      have h1 : ¬ headIsUnderscore (pathBase n) = true := by
        rw [hparts.1]
        exact Bool.false_ne_true
      have h2 : ¬ (trimSpaceGo c).length = 0 := hparts.2
      rw [List.filter_cons, if_pos hb]
      cases hp : parse c with
      | none =>
        rw [smLoop_parse_err parse apis n c
            (rest.filter (fun p => ! skipDoc p)) hs g h1 h2 hp,
          smLoop_parse_err parse apis n c rest hs g h1 h2 hp]
      | some sh =>
        by_cases hv : sh.version ≠ "" ∧ ¬ apis.contains sh.version = true
        · rw [smLoop_version_err parse apis n c
              (rest.filter (fun p => ! skipDoc p)) hs g sh h1 h2 hp hv,
            smLoop_version_err parse apis n c rest hs g sh h1 h2 hp hv]
        · cases hmd : sh.metadata with
          | none =>
            rw [smLoop_generic_noMeta parse apis n c
                (rest.filter (fun p => ! skipDoc p)) hs g sh h1 h2 hp hv hmd,
              smLoop_generic_noMeta parse apis n c rest hs g sh h1 h2 hp hv
                hmd, ih]
          | some md =>
            cases hann : md.annotations with
            | none =>
              rw [smLoop_generic_noAnns parse apis n c
                  (rest.filter (fun p => ! skipDoc p)) hs g sh md h1 h2 hp
                  hv hmd hann,
                smLoop_generic_noAnns parse apis n c rest hs g sh md h1 h2
                  hp hv hmd hann, ih]
            | some anns =>
              by_cases hlen : anns.length = 0
              · rw [smLoop_generic_emptyAnns parse apis n c
                    (rest.filter (fun p => ! skipDoc p)) hs g sh md anns h1
                    h2 hp hv hmd hann hlen,
                  smLoop_generic_emptyAnns parse apis n c rest hs g sh md
                    anns h1 h2 hp hv hmd hann hlen, ih]
              · cases hget : annGet anns hookAnno with
                | none =>
                  rw [smLoop_generic_noHookAnno parse apis n c
                      (rest.filter (fun p => ! skipDoc p)) hs g sh md anns
                      h1 h2 hp hv hmd hann hlen hget,
                    smLoop_generic_noHookAnno parse apis n c rest hs g sh
                      md anns h1 h2 hp hv hmd hann hlen hget, ih]
                | some ht =>
                  by_cases hre : recognizedEvents ht = []
                  · rw [smLoop_dropped parse apis n c
                        (rest.filter (fun p => ! skipDoc p)) hs g sh md
                        anns ht h1 h2 hp hv hmd hann hlen hget hre,
                      smLoop_dropped parse apis n c rest hs g sh md anns
                        ht h1 h2 hp hv hmd hann hlen hget hre, ih]
                  · rw [smLoop_hook parse apis n c
                        (rest.filter (fun p => ! skipDoc p)) hs g sh md
                        anns ht h1 h2 hp hv hmd hann hlen hget hre,
                      smLoop_hook parse apis n c rest hs g sh md anns ht
                        h1 h2 hp hv hmd hann hlen hget hre, ih]

/-- The generic manifest a single document contributes, if any: the
per-document reading of the loop's generic branches. -/
def docGeneric (parse : String → Option SimpleHead) (p : String × String) :
    Option manifest :=
  if skipDoc p then none
  else match parse p.2 with
    | none => none
    | some sh =>
      match sh.metadata with
      | none => some ⟨p.1, p.2, sh⟩
      | some md =>
        match md.annotations with
        | none => some ⟨p.1, p.2, sh⟩
        | some anns =>
          if anns.length = 0 then some ⟨p.1, p.2, sh⟩
          else match annGet anns hookAnno with
            | none => some ⟨p.1, p.2, sh⟩
            | some _ => none

/-- The hook a single document contributes, if any: the per-document
reading of the loop's hook branch. -/
def docHook (parse : String → Option SimpleHead) (p : String × String) :
    Option Hook :=
  if skipDoc p then none
  else match parse p.2 with
    | none => none
    | some sh =>
      match sh.metadata with
      | none => none
      | some md =>
        match md.annotations with
        | none => none
        | some anns =>
          if anns.length = 0 then none
          else match annGet anns hookAnno with
            | none => none
            | some ht =>
              if recognizedEvents ht = [] then none
              else some ⟨md.name, sh.kind, p.1, p.2, recognizedEvents ht⟩

/-- On success the loop's buckets are exactly the accumulators followed
by the per-document contributions, in input order. -/
theorem smLoop_success (parse : String → Option SimpleHead)
    (apis : List String) : ∀ (files : List (String × String))
    (hs : List Hook) (g : List manifest),
    (sortManifestsLoop parse apis files hs g).2.2 = none →
      sortManifestsLoop parse apis files hs g =
        (hs ++ files.filterMap (docHook parse),
         g ++ files.filterMap (docGeneric parse), none) := by
  intro files
  induction files with
  | nil => intro hs g _; simp [sortManifestsLoop]
  | cons p rest ih =>
    intro hs g hnone
    obtain ⟨n, c⟩ := p
    by_cases hsk : skipDoc (n, c) = true
    · have hdisj : headIsUnderscore (pathBase n) = true ∨
          (trimSpaceGo c).length = 0 := by
        simpa [skipDoc] using hsk
      have hstep := smLoop_skip parse apis n c rest hs g hdisj
      rw [hstep] at hnone ⊢
      have hdg : docGeneric parse (n, c) = none := by
        simp [docGeneric, hsk]
      have hdh : docHook parse (n, c) = none := by
        simp [docHook, hsk]
      rw [List.filterMap_cons, List.filterMap_cons, hdg, hdh]
      exact ih hs g hnone
    · rw [Bool.not_eq_true] at hsk
      have hparts : headIsUnderscore (pathBase n) = false ∧
          ¬ (trimSpaceGo c).length = 0 := by
        simpa [skipDoc] using hsk
      have h1 : ¬ headIsUnderscore (pathBase n) = true := by
        rw [hparts.1]
        exact Bool.false_ne_true
      have h2 : ¬ (trimSpaceGo c).length = 0 := hparts.2
      have hsk' : ¬ skipDoc (n, c) = true := by rw [hsk]; exact Bool.false_ne_true
      cases hp : parse c with
      | none =>
        rw [smLoop_parse_err parse apis n c rest hs g h1 h2 hp] at hnone
        exact absurd hnone (by simp)
      | some sh =>
        by_cases hv : sh.version ≠ "" ∧ ¬ apis.contains sh.version = true
        · rw [smLoop_version_err parse apis n c rest hs g sh h1 h2 hp hv]
            at hnone
          exact absurd hnone (by simp)
        · have hdgen : ∀ hgen : docGeneric parse (n, c) = some ⟨n, c, sh⟩,
              ∀ hdh : docHook parse (n, c) = none,
              sortManifestsLoop parse apis ((n, c) :: rest) hs g =
                sortManifestsLoop parse apis rest hs (g ++ [⟨n, c, sh⟩]) →
              sortManifestsLoop parse apis ((n, c) :: rest) hs g =
                (hs ++ ((n, c) :: rest).filterMap (docHook parse),
                 g ++ ((n, c) :: rest).filterMap (docGeneric parse),
                 none) := by
            intro hgen hdh hstep
            rw [hstep] at hnone ⊢
            rw [List.filterMap_cons, List.filterMap_cons, hgen, hdh,
              ih hs (g ++ [manifest.mk n c sh]) hnone]
            simp
          cases hmd : sh.metadata with
          | none =>
            refine hdgen ?_ ?_
              (smLoop_generic_noMeta parse apis n c rest hs g sh h1 h2 hp
                hv hmd)
            · simp [docGeneric, hsk, hp, hmd]
            · simp [docHook, hsk, hp, hmd]
          | some md =>
            cases hann : md.annotations with
            | none =>
              refine hdgen ?_ ?_
                (smLoop_generic_noAnns parse apis n c rest hs g sh md h1
                  h2 hp hv hmd hann)
              · simp [docGeneric, hsk, hp, hmd, hann]
              · simp [docHook, hsk, hp, hmd, hann]
            | some anns =>
              by_cases hlen : anns.length = 0
              · refine hdgen ?_ ?_
                  (smLoop_generic_emptyAnns parse apis n c rest hs g sh md
                    anns h1 h2 hp hv hmd hann hlen)
                · simp [docGeneric, hsk, hp, hmd, hann, hlen]
                · simp [docHook, hsk, hp, hmd, hann, hlen]
              · cases hget : annGet anns hookAnno with
                | none =>
                  refine hdgen ?_ ?_
                    (smLoop_generic_noHookAnno parse apis n c rest hs g sh
                      md anns h1 h2 hp hv hmd hann hlen hget)
                  · simp [docGeneric, hsk, hp, hmd, hann, hlen, hget]
                  · simp [docHook, hsk, hp, hmd, hann, hlen, hget]
                | some ht =>
                  by_cases hre : recognizedEvents ht = []
                  · have hstep := smLoop_dropped parse apis n c rest hs g
                      sh md anns ht h1 h2 hp hv hmd hann hlen hget hre
                    rw [hstep] at hnone ⊢
                    have hdg : docGeneric parse (n, c) = none := by
                      simp [docGeneric, hsk, hp, hmd, hann, hlen, hget]
                    have hdh : docHook parse (n, c) = none := by
                      simp [docHook, hsk, hp, hmd, hann, hlen, hget, hre]
                    rw [List.filterMap_cons, List.filterMap_cons, hdg, hdh]
                    exact ih hs g hnone
                  · have hstep := smLoop_hook parse apis n c rest hs g sh
                      md anns ht h1 h2 hp hv hmd hann hlen hget hre
                    rw [hstep] at hnone ⊢
                    have hdg : docGeneric parse (n, c) = none := by
                      simp [docGeneric, hsk, hp, hmd, hann, hlen, hget]
                    have hdh : docHook parse (n, c) =
                        some ⟨md.name, sh.kind, n, c, recognizedEvents ht⟩ := by
                      simp [docHook, hsk, hp, hmd, hann, hlen, hget, hre]
                    rw [List.filterMap_cons, List.filterMap_cons, hdg, hdh,
                      ih (hs ++ [Hook.mk md.name sh.kind n c
                        (recognizedEvents ht)]) g hnone]
                    simp

/-- C7: classification silently skips every document whose name's final
path segment starts with an underscore and every document whose trimmed
text is empty — removing exactly those documents from the input changes
nothing about the result (so they are parsed by nothing and appear in no
output bucket), and the skip test is precisely those two conditions; in
particular `templates/_helpers.tpl` and whitespace-only documents are
skipped. -/
theorem C7_skip_rules (parse : String → Option SimpleHead)
    (apis : List String) (ord : SortOrder)
    (files : List (String × String)) :
    (sortManifests parse (files.filter (fun p => ! skipDoc p)) apis ord =
      sortManifests parse files apis ord) ∧
    (∀ n c, skipDoc (n, c) = true ↔
      (headIsUnderscore (pathBase n) = true ∨ (trimSpaceGo c).length = 0)) ∧
    skipDoc ("templates/_helpers.tpl", "kind: X") = true ∧
    skipDoc ("templates/a.yaml", "  \n ") = true := by
  refine ⟨?_, ?_, by decide, by decide⟩
  · unfold sortManifests
    rw [smLoop_filter]
  · intro n c
    simp [skipDoc]

/-- The sort order of the C2 example. -/
def C2order : SortOrder := ["Secret", "ConfigMap", "Service", "Deployment"]

/-- The input manifests of the C2 example, with kinds `[Deployment,
Secret, Unknown, ConfigMap]`. -/
def C2in : List manifest :=
  [⟨"m1", "", ⟨"v1", "Deployment", none⟩⟩,
   ⟨"m2", "", ⟨"v1", "Secret", none⟩⟩,
   ⟨"m3", "", ⟨"v1", "Unknown", none⟩⟩,
   ⟨"m4", "", ⟨"v1", "ConfigMap", none⟩⟩]

/-- C2: `sortByKind` reorders the manifests (a permutation of the
input) so that, whenever `a` comes before `b`, a known kind of `b`
forces `a`'s kind to be known too with rank at most `b`'s — hence every
known-kind manifest precedes every unknown-kind one and known kinds
appear in nondecreasing rank, where a kind is "known" exactly when it
appears in the `SortOrder` and its rank is an index at which it appears;
in particular kinds `[Deployment, Secret, Unknown, ConfigMap]` sorted
against `[Secret, ConfigMap, Service, Deployment]` give `[Secret,
ConfigMap, Deployment, Unknown]`. -/
theorem C2_sortByKind_ordering :
    (∀ (ms : List manifest) (ordering : SortOrder),
      (sortByKind ms ordering).Perm ms ∧
      (sortByKind ms ordering).Pairwise (fun a b =>
        (b.head.kind ∈ ordering → a.head.kind ∈ ordering) ∧
        ∀ ra rb, ordGet (buildOrdering ordering) a.head.kind = some ra →
          ordGet (buildOrdering ordering) b.head.kind = some rb →
          ra ≤ rb) ∧
      (∀ k, (ordGet (buildOrdering ordering) k).isSome = true ↔
        k ∈ ordering) ∧
      (∀ k r, ordGet (buildOrdering ordering) k = some r →
        r < ordering.length ∧ ordering.getD r "" = k)) ∧
    (sortByKind C2in C2order).map (fun m => m.head.kind) =
      ["Secret", "ConfigMap", "Deployment", "Unknown"] := by
  constructor
  · intro ms ordering
    obtain ⟨hperm, hpw⟩ := sortByKind_spec ms ordering
    refine ⟨hperm, hpw.imp ?_, buildOrdering_isSome ordering,
      buildOrdering_index ordering⟩
    intro a b hab
    constructor
    · intro hbmem
      rw [← buildOrdering_isSome] at hbmem ⊢
      rw [Option.isSome_iff_exists] at hbmem ⊢
      obtain ⟨rb, hrb⟩ := hbmem
      have hrb' := buildOrdering_lt ordering _ _ hrb
      have heqb : kindRank ordering b = rb := by
        unfold kindRank ordRank
        rw [hrb]
      cases hga : ordGet (buildOrdering ordering) a.head.kind with
      | none =>
        have heqa : kindRank ordering a = ordering.length := by
          unfold kindRank ordRank
          rw [hga]
        omega
      | some ra => exact ⟨ra, rfl⟩
    · intro ra rb hga hgb
      have heqa : kindRank ordering a = ra := by
        unfold kindRank ordRank
        rw [hga]
      have heqb : kindRank ordering b = rb := by
        unfold kindRank ordRank
        rw [hgb]
      omega
  · simp [sortByKind, goSortList, C2in, C2order, maxDepthGo, bitsCount,
      quickSortF, insertionSortF, insOuter, insInner, shellPass, fswap,
      kindSorterLess, buildOrdering, buildOrderingAux, ordSet, ordGet,
      List.range_succ, List.getD]

/-- The C5 input: one Service followed by six Secrets (all distinct
names, the six Secrets tied under the kind comparator). -/
def C5in : List manifest :=
  [⟨"svc", "", ⟨"v1", "Service", none⟩⟩,
   ⟨"s1", "", ⟨"v1", "Secret", none⟩⟩,
   ⟨"s2", "", ⟨"v1", "Secret", none⟩⟩,
   ⟨"s3", "", ⟨"v1", "Secret", none⟩⟩,
   ⟨"s4", "", ⟨"v1", "Secret", none⟩⟩,
   ⟨"s5", "", ⟨"v1", "Secret", none⟩⟩,
   ⟨"s6", "", ⟨"v1", "Secret", none⟩⟩]

/-- C5 fails on the code: `sortByKind` uses Go's `sort.Sort`, which is
not stable — on seven manifests whose last six all have kind `Secret`
(input order `s1 … s6`), the gap-6 shell pass swaps `s6` to the front,
so the tied Secrets come out as `s6, s1, …, s5`, not in their input
order. -/
theorem C5_counterexample :
    (∀ m ∈ C5in.drop 1, m.head.kind = "Secret") ∧
    (sortByKind C5in InstallOrder).map (fun m => m.name) =
      ["s6", "s1", "s2", "s3", "s4", "s5", "svc"] := by
  constructor
  · decide
  · simp [sortByKind, goSortList, C5in, maxDepthGo, bitsCount,
      quickSortF, insertionSortF, insOuter, insInner, shellPass, fswap,
      kindSorterLess, buildOrdering, InstallOrder, buildOrderingAux,
      ordSet, ordGet, List.range_succ, List.getD]

/-- C3: a document whose hook annotation has at least one recognized
token contributes exactly one Hook carrying every recognized event (in
token order) and nothing to the generic bucket; a document none of whose
tokens is recognized contributes to neither bucket; and concretely
`"pre-install,post-install"` gives the two events while `"bogus"` gives
none. -/
theorem C3_hook_recognition (parse : String → Option SimpleHead)
    (apis : List String) (n c : String) (rest : List (String × String))
    (hs : List Hook) (g : List manifest) (sh : SimpleHead)
    (md : HeadMetadata) (anns : List (String × String)) (ht : String)
    (h1 : ¬ headIsUnderscore (pathBase n) = true)
    (h2 : ¬ (trimSpaceGo c).length = 0) (hp : parse c = some sh)
    (hv : ¬ (sh.version ≠ "" ∧ ¬ apis.contains sh.version = true))
    (hmd : sh.metadata = some md) (hann : md.annotations = some anns)
    (hlen : ¬ anns.length = 0) (hget : annGet anns hookAnno = some ht) :
    (¬ recognizedEvents ht = [] →
      sortManifestsLoop parse apis ((n, c) :: rest) hs g =
        sortManifestsLoop parse apis rest
          (hs ++ [⟨md.name, sh.kind, n, c, recognizedEvents ht⟩]) g) ∧
    (recognizedEvents ht = [] →
      sortManifestsLoop parse apis ((n, c) :: rest) hs g =
        sortManifestsLoop parse apis rest hs g) ∧
    recognizedEvents "pre-install,post-install" =
      [HookEvent.preInstall, HookEvent.postInstall] ∧
    recognizedEvents "bogus" = [] := by
  refine ⟨?_, ?_, by decide, by decide⟩
  · intro hre
    exact smLoop_hook parse apis n c rest hs g sh md anns ht h1 h2 hp hv
      hmd hann hlen hget hre
  · intro hre
    exact smLoop_dropped parse apis n c rest hs g sh md anns ht h1 h2 hp
      hv hmd hann hlen hget hre

/-- The metadata of the C3 witness document. -/
def C3md : HeadMetadata :=
  ⟨"hk", some [(hookAnno, "pre-install,post-install")]⟩

/-- The parsed head of the C3 witness document. -/
def C3head : SimpleHead := ⟨"", "Job", some C3md⟩

/-- The parser of the C3 witness: every document parses to `C3head`. -/
def C3parse : String → Option SimpleHead := fun _ => some C3head

/-- Concrete instance discharging `C3_hook_recognition`'s hypotheses:
the annotated document becomes exactly one Hook with both events. -/
theorem C3_hook_recognition_witness :
    sortManifestsLoop C3parse ["v1"] [("t.yaml", "x")] [] [] =
      sortManifestsLoop C3parse ["v1"] []
        ([] ++ [⟨"hk", "Job", "t.yaml", "x",
          recognizedEvents "pre-install,post-install"⟩]) [] :=
  (C3_hook_recognition C3parse ["v1"] "t.yaml" "x" [] [] [] C3head C3md
    [(hookAnno, "pre-install,post-install")] "pre-install,post-install"
    (by decide) (by decide) rfl (fun h => h.1 rfl) rfl rfl (by decide)
    (by decide)).1 (by decide)

/-- C10: the Hook emitted for an annotated document carries
`recognizedEvents` of the annotation value verbatim — one event per
recognized token occurrence, in token order, without deduplication; in
particular a value listing `pre-install` twice yields the event twice,
in order. -/
theorem C10_duplicate_tokens (parse : String → Option SimpleHead)
    (apis : List String) (n c : String) (rest : List (String × String))
    (hs : List Hook) (g : List manifest) (sh : SimpleHead)
    (md : HeadMetadata) (anns : List (String × String)) (ht : String)
    (h1 : ¬ headIsUnderscore (pathBase n) = true)
    (h2 : ¬ (trimSpaceGo c).length = 0) (hp : parse c = some sh)
    (hv : ¬ (sh.version ≠ "" ∧ ¬ apis.contains sh.version = true))
    (hmd : sh.metadata = some md) (hann : md.annotations = some anns)
    (hlen : ¬ anns.length = 0) (hget : annGet anns hookAnno = some ht)
    (hre : ¬ recognizedEvents ht = []) :
    sortManifestsLoop parse apis ((n, c) :: rest) hs g =
      sortManifestsLoop parse apis rest
        (hs ++ [⟨md.name, sh.kind, n, c,
          (splitComma ht).filterMap
            (fun t => eventsLookup (toLowerGo (trimSpaceGo t)))⟩]) g ∧
    recognizedEvents "pre-install, pre-install,post-install" =
      [HookEvent.preInstall, HookEvent.preInstall,
       HookEvent.postInstall] := by
  refine ⟨?_, by decide⟩
  exact smLoop_hook parse apis n c rest hs g sh md anns ht h1 h2 hp hv
    hmd hann hlen hget hre

/-- The metadata of the C10 witness document, listing `pre-install`
twice. -/
def C10md : HeadMetadata :=
  ⟨"hk2", some [(hookAnno, "pre-install, pre-install,post-install")]⟩

/-- The parsed head of the C10 witness document. -/
def C10head : SimpleHead := ⟨"", "Pod", some C10md⟩

/-- The parser of the C10 witness. -/
def C10parse : String → Option SimpleHead := fun _ => some C10head

/-- Concrete instance discharging `C10_duplicate_tokens`'s hypotheses:
the duplicated token produces its event twice, in order. -/
theorem C10_duplicate_tokens_witness :
    sortManifestsLoop C10parse ["v1"] [("d.yaml", "x")] [] [] =
      sortManifestsLoop C10parse ["v1"] []
        ([] ++ [⟨"hk2", "Pod", "d.yaml", "x",
          (splitComma "pre-install, pre-install,post-install").filterMap
            (fun t => eventsLookup (toLowerGo (trimSpaceGo t)))⟩]) [] ∧
    recognizedEvents "pre-install, pre-install,post-install" =
      [HookEvent.preInstall, HookEvent.preInstall,
       HookEvent.postInstall] :=
  C10_duplicate_tokens C10parse ["v1"] "d.yaml" "x" [] [] [] C10head
    C10md [(hookAnno, "pre-install, pre-install,post-install")]
    "pre-install, pre-install,post-install"
    (by decide) (by decide) rfl (fun h => h.1 rfl) rfl rfl (by decide)
    (by decide) (by decide)

/-- The parser of the C4 failing input: `"good"` parses to a plain
ConfigMap head, `"vbad"` to a head with unavailable apiVersion `v9`, and
anything else (in particular `"bad"`) fails to parse. -/
def C4parse : String → Option SimpleHead := fun s =>
  if s = "good" then some ⟨"", "ConfigMap", none⟩
  else if s = "vbad" then some ⟨"v9", "ConfigMap", none⟩
  else none

/-- The C4 failing input: a well-formed document followed by one that
fails to parse. -/
def C4files : List (String × String) := [("a.yaml", "good"), ("b.yaml", "bad")]

/-- C4 fails on the code: the two error kinds are produced as described
(a ParseError naming the document, an UnsupportedVersionError naming
version and document), but `run` ignores the error returned by
`sortManifests`, so on the failing input the program still emits the
partial manifest output accumulated before the failure. -/
theorem C4_partial_output_on_failure :
    (sortManifests C4parse C4files DefaultVersionSet InstallOrder).2.2 =
      some (SMError.parseError "b.yaml") ∧
    (sortManifests C4parse [("v.yaml", "vbad")] DefaultVersionSet
      InstallOrder).2.2 = some (SMError.versionError "v9" "v.yaml") ∧
    runOutput C4parse false C4files = [("a.yaml", "good")] := by
  refine ⟨by decide, by decide, by decide⟩

/-- No document contributes to both buckets. -/
theorem doc_buckets_exclusive (parse : String → Option SimpleHead)
    (p : String × String) :
    docGeneric parse p = none ∨ docHook parse p = none := by
  by_cases hsk : skipDoc p = true
  · exact Or.inl (by simp [docGeneric, hsk])
  · rw [Bool.not_eq_true] at hsk
    cases hp : parse p.2 with
    | none => exact Or.inl (by simp [docGeneric, hsk, hp])
    | some sh =>
      cases hmd : sh.metadata with
      | none => exact Or.inr (by simp [docHook, hsk, hp, hmd])
      | some md =>
        cases hann : md.annotations with
        | none => exact Or.inr (by simp [docHook, hsk, hp, hmd, hann])
        | some anns =>
          by_cases hlen : anns.length = 0
          · exact Or.inr (by simp [docHook, hsk, hp, hmd, hann, hlen])
          · cases hget : annGet anns hookAnno with
            | none =>
              exact Or.inr (by simp [docHook, hsk, hp, hmd, hann, hlen,
                hget])
            | some ht =>
              exact Or.inl (by simp [docGeneric, hsk, hp, hmd, hann,
                hlen, hget])

/-- A document's generic contribution carries the document's name. -/
theorem docGeneric_name (parse : String → Option SimpleHead)
    (p : String × String) (m : manifest)
    (h : docGeneric parse p = some m) : m.name = p.1 := by
  by_cases hsk : skipDoc p = true
  · rw [show docGeneric parse p = none by simp [docGeneric, hsk]] at h
    exact Option.noConfusion h
  · rw [Bool.not_eq_true] at hsk
    cases hp : parse p.2 with
    | none =>
      rw [show docGeneric parse p = none by simp [docGeneric, hsk, hp]]
        at h
      exact Option.noConfusion h
    | some sh =>
      cases hmd : sh.metadata with
      | none =>
        rw [show docGeneric parse p = some ⟨p.1, p.2, sh⟩ by
          simp [docGeneric, hsk, hp, hmd]] at h
        rw [← Option.some.inj h]
      | some md =>
        cases hann : md.annotations with
        | none =>
          rw [show docGeneric parse p = some ⟨p.1, p.2, sh⟩ by
            simp [docGeneric, hsk, hp, hmd, hann]] at h
          rw [← Option.some.inj h]
        | some anns =>
          by_cases hlen : anns.length = 0
          · rw [show docGeneric parse p = some ⟨p.1, p.2, sh⟩ by
              simp [docGeneric, hsk, hp, hmd, hann, hlen]] at h
            rw [← Option.some.inj h]
          · cases hget : annGet anns hookAnno with
            | none =>
              rw [show docGeneric parse p = some ⟨p.1, p.2, sh⟩ by
                simp [docGeneric, hsk, hp, hmd, hann, hlen, hget]] at h
              rw [← Option.some.inj h]
            | some ht =>
              rw [show docGeneric parse p = none by
                simp [docGeneric, hsk, hp, hmd, hann, hlen, hget]] at h
              exact Option.noConfusion h

/-- The generic contributions' names form a sublist of the input
names. -/
theorem docGeneric_names_sublist (parse : String → Option SimpleHead) :
    ∀ files : List (String × String),
    ((files.filterMap (docGeneric parse)).map
      (fun m => m.name)).Sublist (files.map Prod.fst) := by
  intro files
  induction files with
  | nil => simp
  | cons p rest ih =>
    rw [List.filterMap_cons]
    cases hd : docGeneric parse p with
    | none =>
      rw [List.map_cons]
      exact ih.cons p.1
    | some m =>
      rw [List.map_cons, List.map_cons, docGeneric_name parse p m hd]
      exact ih.cons₂ p.1

/-- The parser of the C8 counterexample: every document parses to a head
whose only annotation is a hook annotation with no recognized token. -/
def C8parse : String → Option SimpleHead :=
  fun _ => some ⟨"", "ConfigMap", some ⟨"nm", some [(hookAnno, "bogus")]⟩⟩

/-- C8 fails on the spec: a non-skipped document whose hook annotation
has only unrecognized tokens is dropped entirely — classification
succeeds, yet the document's name is in neither bucket, so the generic
names are not "exactly the names of the non-skipped, non-hook input
documents". -/
theorem C8_counterexample :
    skipDoc ("d.yaml", "x") = false ∧
    sortManifests C8parse [("d.yaml", "x")] DefaultVersionSet
      InstallOrder = ([], [], none) :=
  ⟨by decide, by decide⟩

/-- C8 amended: on success, no document contributes to both buckets, the
hooks are exactly the per-document hook contributions, and the names of
the sorted generic manifests are exactly (as a permutation, hence — for
the map-derived duplicate-free inputs — exactly once each) the names of
the documents that classify as generic: non-skipped, parsed, and without
a hook annotation to act on. -/
theorem C8_amended_buckets (parse : String → Option SimpleHead)
    (apis : List String) (ord : SortOrder)
    (files : List (String × String))
    (hnone : (sortManifests parse files apis ord).2.2 = none)
    (hnd : (files.map Prod.fst).Nodup) :
    (∀ p : String × String,
      docGeneric parse p = none ∨ docHook parse p = none) ∧
    (sortManifests parse files apis ord).1 =
      files.filterMap (docHook parse) ∧
    ((sortManifests parse files apis ord).2.1.map
      (fun m => m.name)).Perm
      ((files.filterMap (docGeneric parse)).map (fun m => m.name)) ∧
    ((sortManifests parse files apis ord).2.1.map
      (fun m => m.name)).Nodup := by
  rcases htrip : sortManifestsLoop parse apis files [] [] with ⟨hs0, g0, e0⟩
  have hsm : sortManifests parse files apis ord =
      match (hs0, g0, e0) with
      | (hs, generic, none) => (hs, sortByKind generic ord, none)
      | (hs, generic, some e) => (hs, generic, some e) := by
    unfold sortManifests
    rw [htrip]
  cases e0 with
  | some e =>
    rw [hsm] at hnone
    exact absurd hnone (by simp)
  | none =>
    have hchar := smLoop_success parse apis files [] [] (by rw [htrip])
    rw [htrip] at hchar
    have hhs : hs0 = files.filterMap (docHook parse) := by
      have := congrArg Prod.fst hchar
      simpa using this
    have hg : g0 = files.filterMap (docGeneric parse) := by
      have := congrArg (fun t => t.2.1) hchar
      simpa using this
    rw [hsm, hg]
    have hperm3 : ((sortByKind (files.filterMap (docGeneric parse))
        ord).map (fun m => m.name)).Perm
        ((files.filterMap (docGeneric parse)).map (fun m => m.name)) :=
      (sortByKind_spec (files.filterMap (docGeneric parse)) ord).1.map
        (fun m => m.name)
    have hnd2 : ((files.filterMap (docGeneric parse)).map
        (fun m => m.name)).Nodup :=
      (docGeneric_names_sublist parse files).nodup hnd
    refine ⟨doc_buckets_exclusive parse, hhs, hperm3, ?_⟩
    exact hperm3.nodup_iff.mpr hnd2

/-- The parser of the C8 witness: everything parses to a plain Secret
head with no metadata. -/
def C8wparse : String → Option SimpleHead := fun _ => some ⟨"", "Secret", none⟩

/-- The input of the C8 witness. -/
def C8wfiles : List (String × String) := [("w.yaml", "y")]

/-- Concrete instance discharging `C8_amended_buckets`'s hypotheses. -/
theorem C8_amended_buckets_witness :
    (∀ p : String × String,
      docGeneric C8wparse p = none ∨ docHook C8wparse p = none) ∧
    (sortManifests C8wparse C8wfiles DefaultVersionSet InstallOrder).1 =
      C8wfiles.filterMap (docHook C8wparse) ∧
    ((sortManifests C8wparse C8wfiles DefaultVersionSet
      InstallOrder).2.1.map (fun m => m.name)).Perm
      ((C8wfiles.filterMap (docGeneric C8wparse)).map
        (fun m => m.name)) ∧
    ((sortManifests C8wparse C8wfiles DefaultVersionSet
      InstallOrder).2.1.map (fun m => m.name)).Nodup :=
  C8_amended_buckets C8wparse DefaultVersionSet InstallOrder C8wfiles
    (by decide) (by decide)
